import Mathlib

/-!
# Deckard: repository synchronisation pipeline (`repo.go`)

A shallow embedding of the log parser, the numstat parser, the diff gateway, the
mirror update and the commit orchestrator of `repo.go`, with the properties
proved about them.

Go strings are modelled as lists of Unicode code points (`Str`), that is, as
valid UTF-8 text.  The Go standard-library functions used by the code
(`strings.Split`, `strings.Fields`, `strings.TrimSpace`, `strconv.ParseUint`,
`strconv.Atoi`) are modelled from their documented behaviour.
-/

namespace Deckard

deriving instance DecidableEq for Except

/-! ## Strings -/

/-- Go strings, as the sequence of their Unicode code points. -/
abbrev Str := List Char

/-- The white space characters of `unicode.IsSpace`: tab, line feed, vertical tab,
form feed, carriage return, space, U+0085, U+00A0 and the `White_Space` code
points above Latin-1. -/
def isSpace (c : Char) : Bool :=
  let n := c.toNat
  (9 ≤ n && n ≤ 13) || n == 32 || n == 0x85 || n == 0xA0 || n == 0x1680 ||
  (0x2000 ≤ n && n ≤ 0x200A) || n == 0x2028 || n == 0x2029 || n == 0x202F ||
  n == 0x205F || n == 0x3000

/-- The function `strings.Split(s, sep)` for a one-character separator: the pieces
of `s` between the occurrences of `sep`; one more piece than occurrences. -/
def split : Str → Char → List Str
  | [], _ => [[]]
  | c :: cs, sep =>
    if c = sep then [] :: split cs sep
    else
      match split cs sep with
      | [] => [[c]]
      | piece :: pieces => (c :: piece) :: pieces

/-- The scanning loop of `strings.Fields`: `cur` is the field being read,
reversed; a white space character closes a non-empty field. -/
def fieldsLoop : Str → Str → List Str
  | [], cur => if cur = [] then [] else [cur.reverse]
  | c :: cs, cur =>
    if isSpace c then
      (if cur = [] then fieldsLoop cs [] else cur.reverse :: fieldsLoop cs [])
    else fieldsLoop cs (c :: cur)

/-- The function `strings.Fields`: the maximal runs of non-space characters. -/
def fields (s : Str) : List Str := fieldsLoop s []

/-- The function `strings.TrimSpace`: leading and trailing white space removed. -/
def trimSpace (s : Str) : Str :=
  ((s.dropWhile isSpace).reverse.dropWhile isSpace).reverse

/-- Value of an ASCII decimal digit, `none` for any other character. -/
def digitVal (c : Char) : Option Nat :=
  if 48 ≤ c.toNat ∧ c.toNat ≤ 57 then some (c.toNat - 48) else none

/-- The digit loop of `strconv.ParseUint` in base 10: `n` is the value read so
far; a non-digit is a failure, and so is a value that leaves the range
(`n >= cutoff` before the multiplication, above `maxVal` after the addition). -/
def parseUintLoop (maxVal : Nat) : Str → Nat → Option Nat
  | [], n => some n
  | c :: cs, n =>
    match digitVal c with
    | none => none
    | some d =>
      if n ≥ (2 ^ 64 - 1) / 10 + 1 then none
      else if n * 10 + d > maxVal then none
      else parseUintLoop maxVal cs (n * 10 + d)

/-- The call `strconv.ParseUint(s, 10, bitSize)`; `none` stands for a returned
error (empty text, a character that is not a digit, or a value of more than
`bitSize` bits). -/
def parseUint (s : Str) (bitSize : Nat) : Option Nat :=
  if s = [] then none else parseUintLoop (2 ^ bitSize - 1) s 0

/-- The function `strconv.Atoi` on a 64-bit platform: an optional sign, then
decimal digits, the value within the range of `int`. -/
def atoi (s : Str) : Option Int :=
  match s with
  | [] => none
  | c :: cs =>
    if c = '-' then
      match parseUint cs 64 with
      | some un => if un > 2 ^ 63 then none else some (-(un : Int))
      | none => none
    else
      match parseUint (if c = '+' then cs else c :: cs) 64 with
      | some un => if un ≥ 2 ^ 63 then none else some (un : Int)
      | none => none

/-! ## Diff parser -/

/-- The type `NumStat`: one file of a numstat diff. -/
structure NumStat where
  Added : Nat
  Deleted : Nat
  File : Str
  deriving DecidableEq, Repr

/-- The type `Diff`. -/
structure Diff where
  Stats : List NumStat
  deriving DecidableEq, Repr

/-- The loop of `parseNumStat` that rebuilds the path: `rest` holds
`fields[i:]`, and a space is written before every field but `fields[2]`. -/
def fileLoop : List Str → Nat → Str → Str
  | [], _, file => file
  | f :: rest, i, file =>
    fileLoop rest (i + 1) ((if i ≠ 2 then file ++ [' '] else file) ++ f)

/-- The text of `fmt.Errorf("unexpected diff line: %s", line)`. -/
def unexpectedDiffLine (line : Str) : Str :=
  "unexpected diff line: ".toList ++ line

/-- The entry appended for a line whose count does not parse. -/
def degraded : NumStat := { Added := 0, Deleted := 0, File := [] }

/-- The loop over the lines in `parseNumStat`, `stats` being the entries
appended so far. -/
def parseNumStatLoop : List Str → List NumStat → Except Str Diff
  | [], stats => .ok { Stats := stats }
  | line :: lines, stats =>
    if (trimSpace line).length = 0 then parseNumStatLoop lines stats
    else
      let fs := fields line
      if fs.length < 3 then .error (unexpectedDiffLine line)
      else
        match parseUint (fs.getD 0 []) 32 with
        | none => parseNumStatLoop lines (stats ++ [degraded])
        | some added =>
          match parseUint (fs.getD 1 []) 32 with
          | none => parseNumStatLoop lines (stats ++ [degraded])
          | some deleted =>
            parseNumStatLoop lines
              (stats ++ [{ Added := added, Deleted := deleted,
                           File := fileLoop (fs.drop 2) 2 [] }])

/-- The function `parseNumStat`. -/
def parseNumStat (raw : Str) : Except Str Diff :=
  if raw.length = 0 then .ok { Stats := [] }
  else parseNumStatLoop (split raw '\n') []

/-! ## Log parser -/

/-- Instants (`time.Time`), as Go holds and compares them: the seconds since
January 1 of year 1, an `int64`, times `10 ^ 9`, plus the nanoseconds within the
second.  `After` compares the seconds and then the nanoseconds, which is the
order of these integers. -/
abbrev Time := Int

/-- The result of an `int64` addition in Go: the sum taken back into the range
from `-2 ^ 63` to `2 ^ 63 - 1` by wrap-around. -/
def wrapInt64 (x : Int) : Int :=
  (x + 9223372036854775808) % 18446744073709551616 - 9223372036854775808

/-- The constant `unixToInternal` of package `time`: the seconds from January 1
of year 1 to January 1, 1970. -/
def unixToInternal : Int := 62135596800

/-- The call `time.Unix(sec, 0)`: the seconds kept are `sec + unixToInternal`, an
`int64` sum that wraps for `sec` of `2 ^ 63 - unixToInternal` and more. -/
def timeUnix (sec : Int) : Time := wrapInt64 (sec + unixToInternal) * 1000000000

/-- The method `Time.Unix`: the seconds since January 1, 1970, again an `int64`
sum. -/
def unixSeconds (t : Time) : Int := wrapInt64 (t / 1000000000 - unixToInternal)

/-- Modelled from the spec: the type `Commit`, which `repo.go` uses and another
file of the package declares: hash, author name, committer name, commit
timestamp, subject, message body, owning project, lifecycle state and score.
The zero values of the last three are `[]`, `0` and `0`. -/
structure Commit where
  Hash : Str
  AuthorName : Str
  CommitterName : Str
  CommitWhen : Time
  Subject : Str
  Message : Str
  Project : Str := []
  State : Nat := 0
  SlatScore : Int := 0
  deriving DecidableEq, Repr

/-- The text of `fmt.Errorf("illegal commit time: %s, folder = %s", v, folder)`. -/
def illegalCommitTime (v targetFolder : Str) : Str :=
  "illegal commit time: ".toList ++ v ++ ", folder = ".toList ++ targetFolder

/-- The loop of `logRepo` over `split`, six fields at a time: the first argument
is `split[i:]`, and the loop ends when fewer than six fields remain. -/
def parseLogLoop (targetFolder : Str) : List Str → List Commit → Except Str (List Commit)
  | hash :: an :: cn :: ct :: subject :: body :: rest, commits =>
    match atoi ct with
    | none => .error (illegalCommitTime ct targetFolder)
    | some cwUnix =>
      parseLogLoop targetFolder rest
        (commits ++ [{ Hash := trimSpace hash, AuthorName := an, CommitterName := cn,
                       CommitWhen := timeUnix cwUnix, Subject := subject, Message := body }])
  | _, commits => .ok commits

/-- The parsing step of `logRepo`: what it does with the output `out` of
`git log`. -/
def parseLog (targetFolder : Str) (out : Str) : Except Str (List Commit) :=
  parseLogLoop targetFolder (split out '\x00') []

/-- What `cmd.Output()` observes of a finished `git` process: exit code, standard
output, captured standard error, and `status`, the text of the `*exec.ExitError`
returned when the exit code is not zero.  A command that could not be started
at all is outside the model. -/
structure CmdResult where
  exitCode : Int
  stdout : Str
  stderr : Str
  status : Str
  deriving DecidableEq, Repr

/-- The function `logRepo`, given the result `run` of its `git log` command. -/
def logRepo (targetFolder : Str) (run : CmdResult) : Except Str (List Commit) :=
  if run.exitCode ≠ 0 then .error run.status
  else parseLog targetFolder run.stdout

/-! ## Diff gateway -/

/-- The text of `fmt.Errorf("diff command failed: %w, out=%s", err, stderr)`. -/
def diffCommandFailed (status stderr : Str) : Str :=
  "diff command failed: ".toList ++ status ++ ", out=".toList ++ stderr

/-- The function `diffRepo`, given the result `run` of its `git diff --numstat`
command. -/
def diffRepo (run : CmdResult) : Except Str Diff :=
  if run.exitCode ≠ 0 then
    if run.exitCode = 128 then .ok { Stats := [] }
    else .error (diffCommandFailed run.status run.stderr)
  else
    match parseNumStat run.stdout with
    | .error err => .error err
    | .ok parsed => .ok parsed

/-! ## Orchestrator -/

/-- The type `ConfigProject`, of which the code reads `Repo`. -/
structure ConfigProject where
  Repo : Str
  deriving DecidableEq, Repr

/-- The type `Config`: the code root and the configured projects.  The Go map
`Projects` is given as the list of its entries in the order the `range` loop
visits them. -/
structure Config where
  CodeFolder : Str
  Projects : List (Str × ConfigProject)

/-- Modelled from the spec: the persistence collaborator, which `repo.go` calls
and another file of the package implements.  One optional cursor per project
and the stored commits. -/
structure DB where
  fetchState : Str → Option Time
  commits : List Commit

/-- Modelled from the spec: `update_fetch_state(project, timestamp)` sets the
cursor of the project. -/
def DB.updateFetchState (db : DB) (prj : Str) (t : Time) : DB :=
  { db with fetchState := fun p => if p = prj then some t else db.fetchState p }

/-- Modelled from the spec: `store_commits(ordered sequence of Commit)` adds the
commits, in order, to the store. -/
def DB.storeCommits (db : DB) (cs : List Commit) : DB :=
  { db with commits := db.commits ++ cs }

/-- The calls that `updateCommits` makes to the persistence collaborator. -/
inductive DbCall where
  | getFetchState (prj : Str)
  | storeCommits (commits : List Commit)
  | updateFetchState (prj : Str) (t : Time)

/-- Everything `updateCommits` gets from outside the package: the clock reading
taken while a project is handled, `path.Join` and `path.Base`, the results of the
`git log` and `git diff` commands, the scoring function, the constant
`STATE_NEW`, and which persistence calls return an error. -/
structure World where
  now : Str → Time
  pathJoin : Str → Str → Str
  pathBase : Str → Str
  gitLog : Str → Time → CmdResult
  gitDiff : Str → Str → CmdResult
  slatScore : Diff → Except Str Int
  STATE_NEW : Nat
  dbError : DbCall → Option Str

/-- The function `repoFolder`. -/
def repoFolder (w : World) (conf : Config) (prjConf : ConfigProject) : Str :=
  w.pathJoin conf.CodeFolder (w.pathBase prjConf.Repo)

/-- The duration `60 * -24 * time.Hour`, in nanoseconds. -/
def fallbackWindow : Int := 60 * -24 * (3600 * 1000000000)

/-- The call `t.Add(60 * -24 * time.Hour)`: the instant 5184000 seconds before
`t`, or, when these seconds leave the range of `int64`, the second
`-(2 ^ 63 - 1)` that `Add` puts in their place. -/
def sixtyDaysBefore (t : Time) : Time :=
  if t / 1000000000 + fallbackWindow / 1000000000 < -9223372036854775808 then
    -9223372036854775807 * 1000000000 + t % 1000000000
  else t + fallbackWindow

/-- The value of `since` after lines 29 to 36: the stored cursor, or the clock
reading minus sixty days when none is stored. -/
def sinceOf (w : World) (db : DB) (prj : Str) : Time :=
  match db.fetchState prj with
  | some t => t
  | none => sixtyDaysBefore (w.now prj)

/-- The text of `fmt.Errorf("diff failed %s, %s, %w", folder, hash, err)`. -/
def diffFailed (folder hash err : Str) : Str :=
  "diff failed ".toList ++ folder ++ ", ".toList ++ hash ++ ", ".toList ++ err

/-- The loop of `updateCommits` over the log of one project, with the running
`lastCommitTime` and `repoCommits`; an error is the value given to `panic`. -/
def commitLoop (w : World) (prj folder : Str) :
    List Commit → Time → List Commit → Except Str (Time × List Commit)
  | [], lastCommitTime, repoCommits => .ok (lastCommitTime, repoCommits)
  | commit :: log, lastCommitTime, repoCommits =>
    match diffRepo (w.gitDiff folder commit.Hash) with
    | .error err => .error (diffFailed folder commit.Hash err)
    | .ok diff =>
      match w.slatScore diff with
      | .error err => .error err
      | .ok slatScore =>
        let tagged : Commit :=
          { commit with Project := prj, State := w.STATE_NEW, SlatScore := slatScore }
        commitLoop w prj folder log
          (if tagged.CommitWhen > lastCommitTime then tagged.CommitWhen else lastCommitTime)
          (repoCommits ++ [tagged])

/-- The body of the loop of `updateCommits` for one project.  The result is the
value given to `panic`, if any, and the database at that point. -/
def syncProject (w : World) (conf : Config) (db : DB) (prj : Str) (pc : ConfigProject) :
    Option Str × DB :=
  match w.dbError (.getFetchState prj) with
  | some err => (some err, db)
  | none =>
    let since := sinceOf w db prj
    let folder := repoFolder w conf pc
    match logRepo folder (w.gitLog folder since) with
    | .error err => (some err, db)
    | .ok log =>
      match commitLoop w prj folder log since [] with
      | .error err => (some err, db)
      | .ok (lastCommitTime, repoCommits) =>
        match w.dbError (.storeCommits repoCommits) with
        | some err => (some err, db)
        | none =>
          match w.dbError (.updateFetchState prj lastCommitTime) with
          | some err => (some err, db.storeCommits repoCommits)
          | none => (none, (db.storeCommits repoCommits).updateFetchState prj lastCommitTime)

/-- The loop of `updateCommits` over the projects; a panic ends it. -/
def updateCommitsLoop (w : World) (conf : Config) :
    List (Str × ConfigProject) → DB → Option Str × DB
  | [], db => (none, db)
  | (prj, pc) :: rest, db =>
    match syncProject w conf db prj pc with
    | (some err, db1) => (some err, db1)
    | (none, db1) => updateCommitsLoop w conf rest db1

/-- The function `updateCommits`, as far as the database is concerned (the status
line and the redraw of the UI are left out). -/
def updateCommits (w : World) (conf : Config) (db : DB) : Option Str × DB :=
  updateCommitsLoop w conf conf.Projects db

/-- A command that `updateRepos` runs: `git clone <repo> <folder>` or `git pull`
in a folder. -/
inductive RepoAction where
  | clone (repo folder : Str)
  | pull (folder : Str)
  deriving DecidableEq, Repr

/-- Everything `updateRepos` gets from outside the package, each answer given the
commands run so far: whether `os.Stat` reports that the folder does not exist,
and the error, if any, of `cloneRepo` and of `pullRepo`. -/
structure Mirror where
  missing : List RepoAction → Str → Bool
  cloneError : List RepoAction → ConfigProject → Str → Option Str
  pullError : List RepoAction → Str → Option Str

/-- The text of `fmt.Errorf("error pulling %s: %w", folder, err)`. -/
def errorPulling (folder err : Str) : Str :=
  "error pulling ".toList ++ folder ++ ": ".toList ++ err

/-- The body of the loop of `updateRepos` for one project, `done` being the
commands run so far: clone when the folder does not exist, pull otherwise.  The
result is the value given to `panic`, if any, and the commands run. -/
def repoStep (w : World) (m : Mirror) (conf : Config) (pc : ConfigProject)
    (done : List RepoAction) : Option Str × List RepoAction :=
  let folder := repoFolder w conf pc
  if m.missing done folder then
    match m.cloneError done pc folder with
    | some err => (some err, done ++ [.clone pc.Repo folder])
    | none => (none, done ++ [.clone pc.Repo folder])
  else
    match m.pullError done folder with
    | some err => (some (errorPulling folder err), done ++ [.pull folder])
    | none => (none, done ++ [.pull folder])

/-- The loop of `updateRepos` over the projects, in the order `visit` in which
the `range` loop reaches them; a panic ends it. -/
def updateReposLoop (w : World) (m : Mirror) (conf : Config) :
    List (Str × ConfigProject) → List RepoAction → Option Str × List RepoAction
  | [], done => (none, done)
  | (_, pc) :: rest, done =>
    match repoStep w m conf pc done with
    | (some err, done1) => (some err, done1)
    | (none, done1) => updateReposLoop w m conf rest done1

/-- The function `updateRepos`, as far as the commands it runs are concerned.
`visit` holds the entries of `conf.Projects` in the order of this loop, which
need not be the order of the loop of `updateCommits`. -/
def updateRepos (w : World) (m : Mirror) (conf : Config)
    (visit : List (Str × ConfigProject)) : Option Str × List RepoAction :=
  updateReposLoop w m conf visit []

/-- The function `backgroundUpdate`: `updateRepos`, then `updateCommits` unless
the first has panicked.  The result is the value given to `panic`, if any, the
commands run on the mirrors and the database. -/
def backgroundUpdate (w : World) (m : Mirror) (conf : Config)
    (visit : List (Str × ConfigProject)) (db : DB) : Option Str × List RepoAction × DB :=
  match updateRepos w m conf visit with
  | (some err, done) => (some err, done, db)
  | (none, done) => ((updateCommits w conf db).1, done, (updateCommits w conf db).2)

/-! ## Encoding of a log, as `git log` writes it -/

/-- Decimal digits of `n`, most significant first, in front of `acc`. -/
def formatNatLoop : Nat → Nat → Str → Str
  | 0, _, acc => acc
  | fuel + 1, n, acc =>
    if n < 10 then Char.ofNat (48 + n) :: acc
    else formatNatLoop fuel (n / 10) (Char.ofNat (48 + n % 10) :: acc)

/-- Decimal text of a natural number. -/
def formatNat (n : Nat) : Str := formatNatLoop (n + 1) n []

/-- Decimal text of an integer, with a minus sign when negative. -/
def formatInt : Int → Str
  | .ofNat n => formatNat n
  | .negSucc n => '-' :: formatNat (n + 1)

/-- One record of `git log --format=%H%x00%an%x00%cn%x00%ct%x00%s%x00%b%x00`: the
six fields, each followed by a NUL byte, then the newline that ends the record. -/
def encodeCommit (c : Commit) : Str :=
  c.Hash ++ '\x00' :: (c.AuthorName ++ '\x00' :: (c.CommitterName ++ '\x00' ::
    (formatInt (unixSeconds c.CommitWhen) ++ '\x00' :: (c.Subject ++ '\x00' ::
      (c.Message ++ ['\x00', '\n'])))))

/-- The output of `git log` for a list of commits. -/
def encodeLog (cs : List Commit) : Str :=
  (cs.map encodeCommit).flatten

/-- The record that the log parser builds for a commit: project, state and score
are not set yet. -/
def logRecord (c : Commit) : Commit :=
  { c with Project := [], State := 0, SlatScore := 0 }

/-! ## Vocabulary of the statements -/

/-- A line that is white space only. -/
def isBlank (line : Str) : Bool := line.all isSpace

/-- A token: at least one character, none of them white space. -/
def isToken (tok : Str) : Bool := !tok.isEmpty && tok.all (fun c => !isSpace c)

/-- A decimal token: at least one character, all of them ASCII digits. -/
def isDecimal (tok : Str) : Bool := !tok.isEmpty && tok.all (fun c => (digitVal c).isSome)

/-- The number that a string of decimal digits writes. -/
def decimalValue (tok : Str) : Nat :=
  tok.foldl (fun n c => n * 10 + (digitVal c).getD 0) 0

/-- A count token that is a valid count: a decimal token of a value below
`2 ^ 32`. -/
def validCount (tok : Str) : Bool := isDecimal tok && decide (decimalValue tok < 2 ^ 32)

/-- The text made of white space `lead` and then of each token followed by its
own white space. -/
def layout (lead : Str) : List (Str × Str) → Str
  | [] => lead
  | (tok, sep) :: rest => lead ++ tok ++ layout sep rest

/-- The tokens of a layout are tokens and what follows each is white space, which
is not empty between two tokens: it may be missing only after the last token. -/
def wellLaid : List (Str × Str) → Bool
  | [] => true
  | [(tok, sep)] => isToken tok && isBlank sep
  | (tok, sep) :: rest => isToken tok && isBlank sep && !sep.isEmpty && wellLaid rest

/-- A line that is not white space only and has one or two tokens. -/
def shortLine (line : Str) : Bool :=
  !isBlank line && ((fields line).length == 1 || (fields line).length == 2)

/-- Record `k` of the fields `f` of a log: fields `6k` to `6k+5`, the first
trimmed, the fourth read as epoch seconds. -/
def recordAt (f : List Str) (k : Nat) : Commit :=
  { Hash := trimSpace (f.getD (6 * k) []),
    AuthorName := f.getD (6 * k + 1) [],
    CommitterName := f.getD (6 * k + 2) [],
    CommitWhen := timeUnix ((atoi (f.getD (6 * k + 3) [])).getD 0),
    Subject := f.getD (6 * k + 4) [],
    Message := f.getD (6 * k + 5) [] }

/-- A text with no white space at its start and none at its end. -/
def trimmed (s : Str) : Bool :=
  s.head?.all (fun c => !isSpace c) && s.getLast?.all (fun c => !isSpace c)

/-- A commit that `git log` can write in the format of `logRepo`: no NUL byte in
its texts, a hash without surrounding white space, and a commit time of whole
seconds, the seconds being an `int64` as in every `time.Time`. -/
def encodable (c : Commit) : Prop :=
  '\x00' ∉ c.Hash ∧ '\x00' ∉ c.AuthorName ∧ '\x00' ∉ c.CommitterName ∧
  '\x00' ∉ c.Subject ∧ '\x00' ∉ c.Message ∧ trimmed c.Hash = true ∧
  c.CommitWhen % 1000000000 = 0 ∧
  -9223372036854775808 ≤ c.CommitWhen / 1000000000 ∧
  c.CommitWhen / 1000000000 < 9223372036854775808

instance (c : Commit) : Decidable (encodable c) := by
  unfold encodable
  infer_instance

/-- An instant that a `time.Time` can hold: its seconds are an `int64`. -/
def isTime (t : Time) : Prop :=
  -9223372036854775808 ≤ t / 1000000000 ∧ t / 1000000000 < 9223372036854775808

/-- An instant whose epoch seconds are below `2 ^ 63 - 62135596800`: the instants
that `time.Unix` makes without wrap-around, for which the order of `Time` is the
order of the epoch seconds. -/
def unwrapped (t : Time) : Prop :=
  isTime t ∧ unixSeconds t < 9223372036854775808 - 62135596800

/-- The epoch time of an instant in nanoseconds: its epoch seconds, as
`Time.Unix` gives them, and its nanoseconds within the second. -/
def unixNano (t : Time) : Int := unixSeconds t * 1000000000 + t % 1000000000

instance (t : Time) : Decidable (isTime t) := by
  unfold isTime
  infer_instance

instance (t : Time) : Decidable (unwrapped t) := by
  unfold unwrapped
  infer_instance

/-- The latest of the instant `since` and the commit times of `log`. -/
def cursorAfter (since : Time) (log : List Commit) : Time :=
  log.foldl (fun t c => max t c.CommitWhen) since

/-- A world for the examples: the clock reads 6000000 seconds after the epoch,
`git log` prints `logOut`, `git diff` prints nothing, every diff scores 0 and the
persistence calls succeed. -/
def exampleWorld (logOut : Str) : World :=
  { now := fun _ => timeUnix 6000000
    pathJoin := fun a b => a ++ '/' :: b
    pathBase := fun r => r
    gitLog := fun _ _ => { exitCode := 0, stdout := logOut, stderr := [], status := [] }
    gitDiff := fun _ _ => { exitCode := 0, stdout := [], stderr := [], status := [] }
    slatScore := fun _ => .ok 0
    STATE_NEW := 1
    dbError := fun _ => none }

/-- A configuration with the single project `p`. -/
def exampleConfig : Config :=
  { CodeFolder := "code".toList, Projects := [(['p'], { Repo := "repo".toList })] }

/-- A database with no commits and the given cursors. -/
def exampleDB (fetchState : Str → Option Time) : DB :=
  { fetchState := fetchState, commits := [] }

/-- The entries that the lines which are not blank contribute, in order. -/
def lineEntries (lineEntry : Str → NumStat) (lines : List Str) : List NumStat :=
  (lines.filter (fun l => !isBlank l)).map lineEntry

/-- The entry that `parseNumStat` appends for a line of three tokens or more. -/
def lineEntry (line : Str) : NumStat :=
  match parseUint ((fields line).getD 0 []) 32 with
  | none => degraded
  | some added =>
    match parseUint ((fields line).getD 1 []) 32 with
    | none => degraded
    | some deleted =>
      { Added := added, Deleted := deleted, File := fileLoop ((fields line).drop 2) 2 [] }

/-- The layout of path tokens joined by single spaces: every token but the last
is followed by one space. -/
def spaced : List Str → List (Str × Str)
  | [] => []
  | [tok] => [(tok, [])]
  | tok :: rest => (tok, [' ']) :: spaced rest

/-- The numstat line that `git diff --numstat` writes for a file: the added
count, a tab, the deleted count, a tab, the path. -/
def numStatLine (a d : Nat) (path : Str) : Str :=
  formatNat a ++ '\t' :: (formatNat d ++ '\t' :: path)

/-- The score that `updateCommits` computes for a commit: the score of the diff
of its hash (0 stands for a diff or a score that fails). -/
def scoreOf (w : World) (folder : Str) (c : Commit) : Int :=
  match diffRepo (w.gitDiff folder c.Hash) with
  | .error _ => 0
  | .ok diff =>
    match w.slatScore diff with
    | .error _ => 0
    | .ok score => score

/-- A commit of the log with project, state and score set as `updateCommits`
sets them. -/
def tagCommit (w : World) (prj folder : Str) (c : Commit) : Commit :=
  { c with Project := prj, State := w.STATE_NEW, SlatScore := scoreOf w folder c }

/-- The pass of a project fails before anything is stored: the log is not
retrieved or not parsed, or the diff or the score of one of its commits fails. -/
def passFails (w : World) (conf : Config) (since : Time) (pc : ConfigProject) : Prop :=
  (∃ e, logRepo (repoFolder w conf pc) (w.gitLog (repoFolder w conf pc) since) = .error e) ∨
  ∃ log, logRepo (repoFolder w conf pc) (w.gitLog (repoFolder w conf pc) since) = .ok log ∧
    ∃ c ∈ log, (∃ e, diffRepo (w.gitDiff (repoFolder w conf pc) c.Hash) = .error e) ∨
      ∃ diff e, diffRepo (w.gitDiff (repoFolder w conf pc) c.Hash) = .ok diff ∧
        w.slatScore diff = .error e

/-- A world for the examples in which `git log` fails in the folder `code/p`,
with exit code 1, and prints one commit, made at 900000 s, everywhere else. -/
def brokenWorld : World :=
  { exampleWorld "h\x00a\x00c\x00900000\x00s\x00b\x00\n".toList with
    gitLog := fun folder _ =>
      if folder = "code/p".toList then
        { exitCode := 1, stdout := [], stderr := "fatal".toList,
          status := "exit status 1".toList }
      else
        { exitCode := 0, stdout := "h\x00a\x00c\x00900000\x00s\x00b\x00\n".toList, stderr := [],
          status := [] } }

/-- A configuration with the two projects `p` and `q`, visited in this order. -/
def exampleConfigTwo : Config :=
  { CodeFolder := "code".toList,
    Projects := [(['p'], { Repo := ['p'] }), (['q'], { Repo := ['q'] })] }

/-- Mirrors for the examples: no folder exists yet, the clone into `code/p`
fails and every other command succeeds. -/
def brokenMirror : Mirror :=
  { missing := fun _ _ => true
    cloneError := fun _ _ folder =>
      if folder = "code/p".toList then some "exit status 128".toList else none
    pullError := fun _ _ => none }

/-- Nothing fails while the project `prj` is handled from the database `db`, `log`
being its log: the cursor is read, the log is retrieved as `log`, the diff and
the score of every commit succeed, and neither `StoreCommits` nor
`UpdateFetchState` returns an error. -/
def passSucceeds (w : World) (conf : Config) (db : DB) (prj : Str) (pc : ConfigProject)
    (log : List Commit) : Prop :=
  w.dbError (.getFetchState prj) = none ∧
  logRepo (repoFolder w conf pc) (w.gitLog (repoFolder w conf pc) (sinceOf w db prj)) =
    .ok log ∧
  (∀ c ∈ log, ∃ diff score,
    diffRepo (w.gitDiff (repoFolder w conf pc) c.Hash) = .ok diff ∧
      w.slatScore diff = .ok score) ∧
  w.dbError (.storeCommits (log.map (tagCommit w prj (repoFolder w conf pc)))) = none ∧
  w.dbError (.updateFetchState prj (cursorAfter (sinceOf w db prj) log)) = none

/-! ## Strings: lemmas -/

theorem split_ne_nil (s : Str) (sep : Char) : split s sep ≠ [] := by
  induction s with
  | nil => simp [split]
  | cons c cs ih =>
    unfold split
    split
    · simp
    · split <;> simp

theorem split_of_not_mem (f : Str) (sep : Char) (h : sep ∉ f) : split f sep = [f] := by
  induction f with
  | nil => rfl
  | cons c cs ih =>
    have hc : c ≠ sep := fun e => h (by simp [e])
    have hcs : sep ∉ cs := fun e => h (by simp [e])
    simp [split, hc, ih hcs]

theorem split_append_sep (f rest : Str) (sep : Char) (h : sep ∉ f) :
    split (f ++ sep :: rest) sep = f :: split rest sep := by
  induction f with
  | nil => simp [split]
  | cons c cs ih =>
    have hc : c ≠ sep := fun e => h (by simp [e])
    have hcs : sep ∉ cs := fun e => h (by simp [e])
    simp [split, hc, ih hcs]

theorem trimSpace_length_eq_zero (s : Str) :
    (trimSpace s).length = 0 ↔ ∀ c ∈ s, isSpace c = true := by
  unfold trimSpace
  rw [List.length_reverse, List.length_eq_zero, List.dropWhile_eq_nil_iff]
  constructor
  · intro h
    rw [← List.dropWhile_eq_nil_iff]
    by_contra hne
    have h1 := List.head_dropWhile_not isSpace s hne
    have h2 := h ((List.dropWhile isSpace s).head hne) (by simp)
    simp [h2] at h1
  · intro h
    have : List.dropWhile isSpace s = [] := List.dropWhile_eq_nil_iff.mpr h
    simp [this]

theorem fieldsLoop_eq_nil (s cur : Str) :
    fieldsLoop s cur = [] ↔ cur = [] ∧ ∀ c ∈ s, isSpace c = true := by
  induction s generalizing cur with
  | nil => simp [fieldsLoop]
  | cons c cs ih =>
    unfold fieldsLoop
    by_cases hc : isSpace c = true
    · by_cases hcur : cur = []
      · simp [hc, hcur, ih]
      · simp [hc, hcur]
    · simp [hc, ih]

theorem fields_eq_nil (s : Str) : fields s = [] ↔ ∀ c ∈ s, isSpace c = true := by
  simp [fields, fieldsLoop_eq_nil]

theorem fieldsLoop_token (tok rest cur : Str) (h : ∀ c ∈ tok, isSpace c = false) :
    fieldsLoop (tok ++ rest) cur = fieldsLoop rest (tok.reverse ++ cur) := by
  induction tok generalizing cur with
  | nil => rfl
  | cons c cs ih =>
    have hc : isSpace c = false := h c (by simp)
    have hcs : ∀ x ∈ cs, isSpace x = false := fun x hx => h x (by simp [hx])
    simp [fieldsLoop, hc, ih _ hcs]

theorem fieldsLoop_blank (ws rest : Str) (h : ∀ c ∈ ws, isSpace c = true) :
    fieldsLoop (ws ++ rest) [] = fieldsLoop rest [] := by
  induction ws with
  | nil => rfl
  | cons c cs ih =>
    have hc : isSpace c = true := h c (by simp)
    have hcs : ∀ x ∈ cs, isSpace x = true := fun x hx => h x (by simp [hx])
    simp [fieldsLoop, hc, ih hcs]

theorem fieldsLoop_close (ws rest cur : Str) (h : ∀ c ∈ ws, isSpace c = true)
    (hws : ws ≠ []) (hcur : cur ≠ []) :
    fieldsLoop (ws ++ rest) cur = cur.reverse :: fieldsLoop rest [] := by
  cases ws with
  | nil => exact absurd rfl hws
  | cons c cs =>
    have hc : isSpace c = true := h c (by simp)
    have hcs : ∀ x ∈ cs, isSpace x = true := fun x hx => h x (by simp [hx])
    simp [fieldsLoop, hc, hcur, fieldsLoop_blank cs rest hcs]

theorem fieldsLoop_blank_end (ws cur : Str) (h : ∀ c ∈ ws, isSpace c = true)
    (hcur : cur ≠ []) : fieldsLoop ws cur = [cur.reverse] := by
  cases ws with
  | nil => simp [fieldsLoop, hcur]
  | cons c cs =>
    have hc : isSpace c = true := h c (by simp)
    have hcs : ∀ x ∈ cs, isSpace x = true := fun x hx => h x (by simp [hx])
    have hnil : fieldsLoop cs [] = [] := (fieldsLoop_eq_nil cs []).mpr ⟨rfl, hcs⟩
    simp [fieldsLoop, hc, hcur, hnil]

theorem isBlank_iff (s : Str) : isBlank s = true ↔ ∀ c ∈ s, isSpace c = true := by
  simp [isBlank]

theorem isToken_iff (s : Str) :
    isToken s = true ↔ s ≠ [] ∧ ∀ c ∈ s, isSpace c = false := by
  cases s <;> simp [isToken]

theorem fields_layout (lead : Str) (toks : List (Str × Str))
    (hlead : isBlank lead = true) (htoks : wellLaid toks = true) :
    fields (layout lead toks) = toks.map Prod.fst := by
  unfold fields
  induction toks generalizing lead with
  | nil =>
    simpa [layout] using (fieldsLoop_eq_nil lead []).mpr ⟨rfl, (isBlank_iff lead).mp hlead⟩
  | cons ts rest ih =>
    obtain ⟨tok, sep⟩ := ts
    have hl := (isBlank_iff lead).mp hlead
    cases rest with
    | nil =>
      simp only [wellLaid, Bool.and_eq_true] at htoks
      obtain ⟨htok, hsep⟩ := htoks
      obtain ⟨hne, hns⟩ := (isToken_iff tok).mp htok
      simp only [layout, List.append_assoc, List.map]
      rw [fieldsLoop_blank lead _ hl, fieldsLoop_token tok _ _ hns,
        fieldsLoop_blank_end sep _ ((isBlank_iff sep).mp hsep) (by simpa using hne)]
      simp
    | cons ts2 rest2 =>
      obtain ⟨tok2, sep2⟩ := ts2
      simp only [wellLaid, Bool.and_eq_true] at htoks ih
      obtain ⟨⟨⟨htok, hsep⟩, hsne⟩, hrest⟩ := htoks
      obtain ⟨hne, hns⟩ := (isToken_iff tok).mp htok
      have hsne2 : sep ≠ [] := by
        intro e
        simp [e] at hsne
      have ih2 := ih [] (by simp [isBlank]) (by simpa [wellLaid] using hrest)
      simp only [layout, List.append_assoc, List.map, List.nil_append] at ih2 ⊢
      rw [fieldsLoop_blank lead _ hl, fieldsLoop_token tok _ _ hns,
        fieldsLoop_close sep _ _ ((isBlank_iff sep).mp hsep) hsne2 (by simpa using hne), ih2]
      simp

theorem decimal_foldl_ge (s : Str) (n : Nat) :
    n ≤ s.foldl (fun n c => n * 10 + (digitVal c).getD 0) n := by
  induction s generalizing n with
  | nil => simp
  | cons c cs ih =>
    simp only [List.foldl_cons]
    exact le_trans (by omega) (ih _)

theorem parseUintLoop_decimal (maxVal : Nat) (s : Str) (n : Nat)
    (hdig : ∀ c ∈ s, (digitVal c).isSome = true) (hmax : maxVal < 2 ^ 64)
    (hval : s.foldl (fun n c => n * 10 + (digitVal c).getD 0) n ≤ maxVal) :
    parseUintLoop maxVal s n = some (s.foldl (fun n c => n * 10 + (digitVal c).getD 0) n) := by
  induction s generalizing n with
  | nil => rfl
  | cons c cs ih =>
    have hc := hdig c (by simp)
    obtain ⟨d, hd⟩ := Option.isSome_iff_exists.mp hc
    have hcs : ∀ x ∈ cs, (digitVal x).isSome = true := fun x hx => hdig x (by simp [hx])
    simp only [List.foldl_cons, hd, Option.getD_some] at hval ⊢
    have hge := decimal_foldl_ge cs (n * 10 + d)
    have h1 : n * 10 + d ≤ maxVal := le_trans hge hval
    have h2 : ¬ (n ≥ (2 ^ 64 - 1) / 10 + 1) := by
      norm_num at hmax ⊢
      omega
    have h3 : ¬ (n * 10 + d > maxVal) := by omega
    simp only [parseUintLoop, hd, h2, h3, if_false]
    exact ih _ hcs hval

theorem parseUint_decimal (tok : Str) (bitSize : Nat) (hb : bitSize ≤ 64)
    (hdec : isDecimal tok = true) (hval : decimalValue tok < 2 ^ bitSize) :
    parseUint tok bitSize = some (decimalValue tok) := by
  have hne : tok ≠ [] := by
    intro e
    simp [e, isDecimal] at hdec
  have hdig : ∀ c ∈ tok, (digitVal c).isSome = true := by
    simp only [isDecimal, Bool.and_eq_true, List.all_eq_true] at hdec
    exact hdec.2
  have hpow : 2 ^ bitSize ≤ 2 ^ 64 := Nat.pow_le_pow_right (by norm_num) hb
  have hpos : 0 < 2 ^ bitSize := Nat.pow_pos (by norm_num)
  simp only [parseUint, hne, if_false]
  exact parseUintLoop_decimal _ tok 0 hdig (by omega) (by unfold decimalValue at hval; omega)

theorem fileLoop_eq (ps : List Str) (i : Nat) (file : Str) (hi : 2 < i) :
    fileLoop ps i file = file ++ (ps.map (fun q => ' ' :: q)).flatten := by
  induction ps generalizing i file with
  | nil => simp [fileLoop]
  | cons p ps ih =>
    have hi2 : i ≠ 2 := by omega
    simp [fileLoop, hi2, ih (i + 1) _ (by omega)]

theorem intercalate_space (p : Str) (ps : List Str) :
    List.intercalate [' '] (p :: ps) = p ++ (ps.map (fun q => ' ' :: q)).flatten := by
  induction ps generalizing p with
  | nil => simp [List.intercalate]
  | cons q qs ih =>
    have := ih q
    simp only [List.intercalate, List.intersperse] at this ⊢
    simp [this]

theorem fileLoop_path (p : Str) (ps : List Str) :
    fileLoop (p :: ps) 2 [] = List.intercalate [' '] (p :: ps) := by
  rw [intercalate_space]
  simp [fileLoop, fileLoop_eq ps 3 p (by omega)]

theorem parseUintLoop_nondigit (maxVal : Nat) (s : Str) (n : Nat)
    (h : ∃ c ∈ s, digitVal c = none) : parseUintLoop maxVal s n = none := by
  induction s generalizing n with
  | nil => simp at h
  | cons c cs ih =>
    unfold parseUintLoop
    cases hd : digitVal c with
    | none => rfl
    | some d =>
      have hcs : ∃ x ∈ cs, digitVal x = none := by
        obtain ⟨x, hx, hxd⟩ := h
        rcases List.mem_cons.mp hx with e | e
        · subst e
          simp [hd] at hxd
        · exact ⟨x, e, hxd⟩
      simp only
      split
      · rfl
      · split
        · rfl
        · exact ih _ hcs

theorem parseUintLoop_large (maxVal : Nat) (s : Str) (n : Nat) (hn : n ≤ maxVal)
    (hval : maxVal < s.foldl (fun n c => n * 10 + (digitVal c).getD 0) n) :
    parseUintLoop maxVal s n = none := by
  induction s generalizing n with
  | nil => simp at hval; omega
  | cons c cs ih =>
    unfold parseUintLoop
    cases hd : digitVal c with
    | none => rfl
    | some d =>
      simp only [List.foldl_cons, hd, Option.getD_some] at hval
      simp only
      split
      · rfl
      · split
        · rfl
        · exact ih _ (by omega) hval

theorem parseUint_isSome (tok : Str) : (parseUint tok 32).isSome = validCount tok := by
  unfold validCount
  cases hdec : isDecimal tok with
  | true =>
    by_cases hval : decimalValue tok < 2 ^ 32
    · rw [parseUint_decimal tok 32 (by norm_num) hdec hval]
      simp only [Option.isSome_some, Bool.true_and]
      exact (decide_eq_true hval).symm
    · have hne : tok ≠ [] := by
        intro e
        simp [e, isDecimal] at hdec
      have : parseUintLoop (2 ^ 32 - 1) tok 0 = none :=
        parseUintLoop_large _ tok 0 (by norm_num) (by unfold decimalValue at hval; omega)
      unfold parseUint
      rw [if_neg hne, this]
      simp only [Option.isSome_none, Bool.true_and]
      exact (decide_eq_false hval).symm
  | false =>
    by_cases hne : tok = []
    · simp [parseUint, hne]
    · have hex : ∃ c ∈ tok, digitVal c = none := by
        simp only [isDecimal, Bool.and_eq_false_iff] at hdec
        rcases hdec with h | h
        · cases tok <;> simp_all
        · simpa using h
      simp [parseUint, hne, parseUintLoop_nondigit _ tok 0 hex]

theorem parseUint_eq_none (tok : Str) (h : validCount tok = false) :
    parseUint tok 32 = none := by
  have := parseUint_isSome tok
  rw [h] at this
  simpa using this

/-! ## Diff parser: lemmas -/

theorem parseNumStat_eq_loop (raw : Str) :
    parseNumStat raw = parseNumStatLoop (split raw '\n') [] := by
  cases raw with
  | nil => rfl
  | cons c cs => simp [parseNumStat]

theorem trimSpace_blank (line : Str) :
    (trimSpace line).length = 0 ↔ isBlank line = true := by
  rw [trimSpace_length_eq_zero, isBlank_iff]

theorem fields_length_pos (line : Str) (h : isBlank line = false) :
    0 < (fields line).length := by
  rw [List.length_pos]
  intro e
  have := (isBlank_iff line).mpr ((fields_eq_nil line).mp e)
  simp [this] at h

theorem shortLine_iff (line : Str) :
    shortLine line = true ↔ isBlank line = false ∧ (fields line).length < 3 := by
  unfold shortLine
  cases hb : isBlank line with
  | true => simp
  | false =>
    have := fields_length_pos line hb
    simp only [Bool.not_false, Bool.true_and, Bool.or_eq_true, beq_iff_eq, true_and]
    omega

theorem loop_blank (line : Str) (lines : List Str) (stats : List NumStat)
    (h : isBlank line = true) :
    parseNumStatLoop (line :: lines) stats = parseNumStatLoop lines stats := by
  have := (trimSpace_blank line).mpr h
  simp [parseNumStatLoop, this]

theorem loop_short (line : Str) (lines : List Str) (stats : List NumStat)
    (h : shortLine line = true) :
    parseNumStatLoop (line :: lines) stats = .error (unexpectedDiffLine line) := by
  obtain ⟨hb, hlen⟩ := (shortLine_iff line).mp h
  have : ¬ (trimSpace line).length = 0 := by
    rw [trimSpace_blank]
    simp [hb]
  simp [parseNumStatLoop, this, hlen]

theorem loop_entry (line : Str) (lines : List Str) (stats : List NumStat)
    (hb : isBlank line = false) (h : shortLine line = false) :
    parseNumStatLoop (line :: lines) stats =
      parseNumStatLoop lines (stats ++ [lineEntry line]) := by
  have h1 : ¬ (trimSpace line).length = 0 := by
    rw [trimSpace_blank]
    simp [hb]
  have h2 : ¬ (fields line).length < 3 := by
    intro hlt
    have := (shortLine_iff line).mpr ⟨hb, hlt⟩
    simp [this] at h
  rw [parseNumStatLoop]
  unfold lineEntry
  simp only [h1, h2, if_false]
  cases parseUint ((fields line).getD 0 []) 32 with
  | none => rfl
  | some a =>
    cases parseUint ((fields line).getD 1 []) 32 with
    | none => rfl
    | some d => rfl

theorem loop_append (pre rest : List Str) (stats : List NumStat)
    (h : ∀ l ∈ pre, shortLine l = false) :
    parseNumStatLoop (pre ++ rest) stats =
      parseNumStatLoop rest (stats ++ lineEntries lineEntry pre) := by
  induction pre generalizing stats with
  | nil => simp [lineEntries]
  | cons l ls ih =>
    have hl := h l (by simp)
    have hls : ∀ x ∈ ls, shortLine x = false := fun x hx => h x (by simp [hx])
    cases hb : isBlank l with
    | true =>
      simp only [List.cons_append]
      rw [loop_blank l _ _ hb, ih _ hls]
      simp [lineEntries, hb]
    | false =>
      simp only [List.cons_append]
      rw [loop_entry l _ _ hb hl, ih _ hls]
      simp [lineEntries, hb]

theorem loop_ok (lines : List Str) (stats : List NumStat)
    (h : ∀ l ∈ lines, shortLine l = false) :
    parseNumStatLoop lines stats = .ok { Stats := stats ++ lineEntries lineEntry lines } := by
  have := loop_append lines [] stats h
  simpa [parseNumStatLoop] using this

theorem first_short (lines : List Str) (h : ∃ l ∈ lines, shortLine l = true) :
    ∃ pre line post, lines = pre ++ line :: post ∧ (∀ l ∈ pre, shortLine l = false) ∧
      shortLine line = true := by
  induction lines with
  | nil => simp at h
  | cons l ls ih =>
    cases hl : shortLine l with
    | true => exact ⟨[], l, ls, rfl, by simp, hl⟩
    | false =>
      have hls : ∃ x ∈ ls, shortLine x = true := by
        obtain ⟨x, hx, hxs⟩ := h
        rcases List.mem_cons.mp hx with e | e
        · subst e
          simp [hl] at hxs
        · exact ⟨x, e, hxs⟩
      obtain ⟨pre, line, post, he, hpre, hline⟩ := ih hls
      refine ⟨l :: pre, line, post, by simp [he], ?_, hline⟩
      intro x hx
      rcases List.mem_cons.mp hx with e | e
      · subst e
        exact hl
      · exact hpre x e

theorem loop_first_short (pre post : List Str) (line : Str) (stats : List NumStat)
    (hpre : ∀ l ∈ pre, shortLine l = false) (hline : shortLine line = true) :
    parseNumStatLoop (pre ++ line :: post) stats = .error (unexpectedDiffLine line) := by
  rw [loop_append pre _ stats hpre, loop_short line _ _ hline]

theorem loop_acc (lines : List Str) (stats : List NumStat) :
    parseNumStatLoop lines stats =
      match parseNumStatLoop lines [] with
      | .error e => .error e
      | .ok d => .ok { Stats := stats ++ d.Stats } := by
  by_cases h : ∃ l ∈ lines, shortLine l = true
  · obtain ⟨pre, line, post, he, hpre, hline⟩ := first_short lines h
    subst he
    simp [loop_first_short pre post line _ hpre hline]
  · have hall : ∀ l ∈ lines, shortLine l = false := by
      intro l hl
      cases hs : shortLine l with
      | true => exact absurd ⟨l, hl, hs⟩ h
      | false => rfl
    simp [loop_ok lines _ hall]

theorem loop_append_bind (pre rest : List Str) (stats : List NumStat) :
    parseNumStatLoop (pre ++ rest) stats =
      match parseNumStatLoop pre stats with
      | .error e => .error e
      | .ok d => parseNumStatLoop rest d.Stats := by
  by_cases h : ∃ l ∈ pre, shortLine l = true
  · obtain ⟨p1, line, p2, he, hpre, hline⟩ := first_short pre h
    subst he
    have := loop_first_short p1 (p2 ++ rest) line stats hpre hline
    simp only [List.append_assoc, List.cons_append] at this ⊢
    simp [this, loop_first_short p1 p2 line stats hpre hline]
  · have hall : ∀ l ∈ pre, shortLine l = false := by
      intro l hl
      cases hs : shortLine l with
      | true => exact absurd ⟨l, hl, hs⟩ h
      | false => rfl
    simp [loop_ok pre _ hall, loop_append pre rest stats hall]

theorem lineEntry_bad_count (line : Str)
    (hbad : validCount ((fields line).getD 0 []) = false ∨
      validCount ((fields line).getD 1 []) = false) :
    lineEntry line = degraded := by
  unfold lineEntry
  rcases hbad with h | h
  · rw [parseUint_eq_none _ h]
  · rw [parseUint_eq_none _ h]
    cases parseUint ((fields line).getD 0 []) 32 <;> rfl

/-! ## Diff parser: the claims -/

/-- C1, as amended: a line laid out as white space `lead`, a decimal token `ta`, a
decimal token `td` and one or more further tokens `p`, `path`, separated by
white space without a line feed, both counts below `2 ^ 32`, parses to exactly
one entry, with the two counts and the path tokens joined by single spaces. -/
theorem parseNumStat_wellFormed_line (lead ta s1 td s2 p s3 : Str) (path : List (Str × Str))
    (hlead : isBlank lead = true)
    (hlaid : wellLaid ((ta, s1) :: (td, s2) :: (p, s3) :: path) = true)
    (hline : '\n' ∉ layout lead ((ta, s1) :: (td, s2) :: (p, s3) :: path))
    (ha : isDecimal ta = true) (hd : isDecimal td = true)
    (ha32 : decimalValue ta < 2 ^ 32) (hd32 : decimalValue td < 2 ^ 32) :
    parseNumStat (layout lead ((ta, s1) :: (td, s2) :: (p, s3) :: path)) =
      .ok { Stats := [{ Added := decimalValue ta, Deleted := decimalValue td,
                        File := List.intercalate [' '] (p :: path.map Prod.fst) }] } := by
  have hf := fields_layout lead _ hlead hlaid
  generalize layout lead ((ta, s1) :: (td, s2) :: (p, s3) :: path) = line at hf hline ⊢
  simp only [List.map] at hf
  have hb : isBlank line = false := by
    cases hbl : isBlank line with
    | false => rfl
    | true =>
      have := (fields_eq_nil line).mpr ((isBlank_iff line).mp hbl)
      rw [hf] at this
      simp at this
  have hs : shortLine line = false := by
    cases hsl : shortLine line with
    | false => rfl
    | true =>
      have := ((shortLine_iff line).mp hsl).2
      rw [hf] at this
      simp only [List.length_cons] at this
      omega
  have he : lineEntry line = NumStat.mk (decimalValue ta) (decimalValue td)
      (List.intercalate [' '] (p :: path.map Prod.fst)) := by
    unfold lineEntry
    rw [hf]
    simp only [List.getD_cons_zero, List.getD_cons_succ, List.drop_succ_cons, List.drop_zero]
    rw [parseUint_decimal ta 32 (by norm_num) ha ha32,
      parseUint_decimal td 32 (by norm_num) hd hd32, fileLoop_path]
  rw [parseNumStat_eq_loop, split_of_not_mem line _ hline, loop_entry line _ _ hb hs, he]
  rfl

/-- C1, witness: the line `3 TAB 5 TAB foo bar.txt` gives one entry, 3 added,
5 deleted, file `foo bar.txt`. -/
theorem parseNumStat_wellFormed_line_witness :
    parseNumStat "3\t5\tfoo bar.txt".toList =
      .ok { Stats := [{ Added := 3, Deleted := 5, File := "foo bar.txt".toList }] } :=
  parseNumStat_wellFormed_line [] ['3'] ['\t'] ['5'] ['\t'] "foo".toList [' ']
    [("bar.txt".toList, [])] (by decide) (by decide) (by decide) (by decide) (by decide)
    (by decide) (by decide)

/-- C1, counterexample to the claim as stated: in the well-formed line
`4294967296 TAB 5 TAB foo` the added count is a decimal token, and the entry
returned is the degraded one, not the entry with that count. -/
theorem parseNumStat_wellFormed_line_counterexample :
    isBlank [] = true ∧
    wellLaid [("4294967296".toList, ['\t']), (['5'], ['\t']), ("foo".toList, [])] = true ∧
    isDecimal "4294967296".toList = true ∧ isDecimal ['5'] = true ∧
    '\n' ∉ layout [] [("4294967296".toList, ['\t']), (['5'], ['\t']), ("foo".toList, [])] ∧
    parseNumStat (layout []
        [("4294967296".toList, ['\t']), (['5'], ['\t']), ("foo".toList, [])]) =
      .ok { Stats := [degraded] } ∧
    parseNumStat (layout []
        [("4294967296".toList, ['\t']), (['5'], ['\t']), ("foo".toList, [])]) ≠
      .ok { Stats := [{ Added := decimalValue "4294967296".toList,
                        Deleted := decimalValue ['5'],
                        File := List.intercalate [' '] ["foo".toList] }] } := by
  decide

/-- C2: `parseNumStat` returns an error exactly when some line of the text (split
at line feeds) is not white space only and has one or two tokens; the error is
then the text `unexpected diff line: ` followed by the first such line. -/
theorem parseNumStat_error_iff (raw : Str) :
    ((∃ e, parseNumStat raw = .error e) ↔ ∃ line ∈ split raw '\n', shortLine line = true) ∧
    ∀ e, parseNumStat raw = .error e →
      ∃ pre line post, split raw '\n' = pre ++ line :: post ∧
        (∀ l ∈ pre, shortLine l = false) ∧ shortLine line = true ∧
        e = "unexpected diff line: ".toList ++ line := by
  rw [parseNumStat_eq_loop]
  generalize split raw '\n' = lines
  have key : ∀ e, parseNumStatLoop lines [] = .error e →
      ∃ pre line post, lines = pre ++ line :: post ∧
        (∀ l ∈ pre, shortLine l = false) ∧ shortLine line = true ∧
        e = "unexpected diff line: ".toList ++ line := by
    intro e he
    by_cases h : ∃ l ∈ lines, shortLine l = true
    · obtain ⟨pre, line, post, hl, hpre, hline⟩ := first_short lines h
      refine ⟨pre, line, post, hl, hpre, hline, ?_⟩
      rw [hl, loop_first_short pre post line _ hpre hline] at he
      exact (Except.error.inj he).symm
    · have hall : ∀ l ∈ lines, shortLine l = false := by
        intro l hl
        cases hs : shortLine l with
        | true => exact absurd ⟨l, hl, hs⟩ h
        | false => rfl
      rw [loop_ok lines _ hall] at he
      cases he
  refine ⟨⟨?_, ?_⟩, key⟩
  · rintro ⟨e, he⟩
    obtain ⟨pre, line, post, hl, -, hline, -⟩ := key e he
    exact ⟨line, by simp [hl], hline⟩
  · intro h
    obtain ⟨pre, line, post, hl, hpre, hline⟩ := first_short lines h
    exact ⟨_, by rw [hl, loop_first_short pre post line _ hpre hline]⟩

/-- C2, witness: the text `3 TAB 5`, a single line of two tokens, is rejected,
and the error carries that line. -/
theorem parseNumStat_error_iff_witness :
    (∃ e, parseNumStat "3\t5".toList = .error e) ∧
    ∃ pre line post, split "3\t5".toList '\n' = pre ++ line :: post ∧
      (∀ l ∈ pre, shortLine l = false) ∧ shortLine line = true ∧
      "unexpected diff line: 3\t5".toList = "unexpected diff line: ".toList ++ line :=
  ⟨(parseNumStat_error_iff "3\t5".toList).1.mpr ⟨"3\t5".toList, by decide, by decide⟩,
   (parseNumStat_error_iff "3\t5".toList).2 "unexpected diff line: 3\t5".toList (by decide)⟩

/-- C3: the empty text parses to a `Diff` with no entries, not to an error. -/
theorem parseNumStat_empty : parseNumStat [] = .ok { Stats := [] } := rfl

/-- C4: a line that is not blank, has three tokens or more, and whose first or
second token is not a valid count, contributes exactly the entry `(0, 0, "")`:
the parse fails only if the lines before or the lines after make it fail, and
otherwise returns the entries of the lines before, that entry, and the entries
of the lines after. -/
theorem parseNumStat_bad_count (raw : Str) (pre post : List Str) (line : Str)
    (hsplit : split raw '\n' = pre ++ line :: post)
    (hb : isBlank line = false) (h3 : 3 ≤ (fields line).length)
    (hbad : validCount ((fields line).getD 0 []) = false ∨
      validCount ((fields line).getD 1 []) = false) :
    parseNumStat raw =
      match parseNumStatLoop pre [] with
      | .error e => .error e
      | .ok before =>
        match parseNumStatLoop post [] with
        | .error e => .error e
        | .ok after =>
          .ok { Stats := before.Stats ++ { Added := 0, Deleted := 0, File := [] } ::
                  after.Stats } := by
  have hs : shortLine line = false := by
    cases hsl : shortLine line with
    | false => rfl
    | true =>
      have := ((shortLine_iff line).mp hsl).2
      omega
  rw [parseNumStat_eq_loop, hsplit, loop_append_bind]
  cases parseNumStatLoop pre [] with
  | error e => rfl
  | ok before =>
    simp only
    rw [loop_entry line _ _ hb hs, lineEntry_bad_count line hbad, loop_acc]
    cases parseNumStatLoop post [] with
    | error e => rfl
    | ok after => simp [degraded]

/-- C4, witness: in `1 TAB 2 TAB a`, `- TAB 3 TAB b c`, `4 TAB 5 TAB d` the
second line has a bad added count next to a valid deleted count. -/
theorem parseNumStat_bad_count_witness :
    parseNumStat "1\t2\ta\n-\t3\tb c\n4\t5\td".toList =
      .ok { Stats := [{ Added := 1, Deleted := 2, File := ['a'] },
                      { Added := 0, Deleted := 0, File := [] },
                      { Added := 4, Deleted := 5, File := ['d'] }] } :=
  parseNumStat_bad_count "1\t2\ta\n-\t3\tb c\n4\t5\td".toList ["1\t2\ta".toList]
    ["4\t5\td".toList] "-\t3\tb c".toList (by decide) (by decide) (by decide) (by decide)

/-! ## Log parser: lemmas -/

theorem getD_shift6 (a b c d e g : Str) (rest : List Str) (i : Nat) :
    (a :: b :: c :: d :: e :: g :: rest).getD (i + 6) [] = rest.getD i [] := by
  simp [List.getD]

theorem recordAt_shift6 (a b c d e g : Str) (rest : List Str) (k : Nat) :
    recordAt (a :: b :: c :: d :: e :: g :: rest) (k + 1) = recordAt rest k := by
  have h0 : 6 * (k + 1) = 6 * k + 6 := by omega
  have h1 : 6 * (k + 1) + 1 = 6 * k + 1 + 6 := by omega
  have h2 : 6 * (k + 1) + 2 = 6 * k + 2 + 6 := by omega
  have h3 : 6 * (k + 1) + 3 = 6 * k + 3 + 6 := by omega
  have h4 : 6 * (k + 1) + 4 = 6 * k + 4 + 6 := by omega
  have h5 : 6 * (k + 1) + 5 = 6 * k + 5 + 6 := by omega
  unfold recordAt
  rw [h1, h2, h3, h4, h5, h0]
  simp only [getD_shift6]

theorem parseLogLoop_short (folder : Str) (fs : List Str) (acc : List Commit)
    (h : fs.length < 6) : parseLogLoop folder fs acc = .ok acc := by
  rcases fs with _ | ⟨a, _ | ⟨b, _ | ⟨c, _ | ⟨d, _ | ⟨e, _ | ⟨g, rest⟩⟩⟩⟩⟩⟩
  all_goals first
    | rfl
    | (simp only [List.length_cons] at h; omega)

theorem parseLogLoop_step (folder : Str) (a b c d e g : Str) (rest : List Str)
    (acc : List Commit) (v : Int) (hv : atoi d = some v) :
    parseLogLoop folder (a :: b :: c :: d :: e :: g :: rest) acc =
      parseLogLoop folder rest
        (acc ++ [recordAt (a :: b :: c :: d :: e :: g :: rest) 0]) := by
  rw [parseLogLoop]
  simp [hv, recordAt]

theorem parseLogLoop_ok (folder : Str) (m : Nat) :
    ∀ (fs : List Str) (acc : List Commit), fs.length / 6 = m →
      (∀ k, k < m → (atoi (fs.getD (6 * k + 3) [])).isSome = true) →
      parseLogLoop folder fs acc = .ok (acc ++ (List.range m).map (recordAt fs)) := by
  induction m with
  | zero =>
    intro fs acc hlen _
    have : fs.length < 6 := by omega
    simp [parseLogLoop_short folder fs acc this]
  | succ m ih =>
    intro fs acc hlen hvalid
    rcases fs with _ | ⟨a, _ | ⟨b, _ | ⟨c, _ | ⟨d, _ | ⟨e, _ | ⟨g, rest⟩⟩⟩⟩⟩⟩
    all_goals try (simp only [List.length_cons, List.length_nil] at hlen; omega)
    have h0 := hvalid 0 (by omega)
    simp only [Nat.mul_zero, Nat.zero_add] at h0
    obtain ⟨v, hv⟩ := Option.isSome_iff_exists.mp h0
    have hv2 : atoi d = some v := by simpa [List.getD] using hv
    have hrest : rest.length / 6 = m := by
      simp only [List.length_cons] at hlen
      omega
    have hvalid2 : ∀ k, k < m → (atoi (rest.getD (6 * k + 3) [])).isSome = true := by
      intro k hk
      have := hvalid (k + 1) (by omega)
      have hk6 : 6 * (k + 1) + 3 = 6 * k + 3 + 6 := by omega
      rwa [hk6, getD_shift6] at this
    rw [parseLogLoop_step folder a b c d e g rest acc v hv2, ih rest _ hrest hvalid2]
    rw [List.range_succ_eq_map]
    simp only [List.map_cons, List.map_map, List.append_assoc, List.singleton_append]
    congr 3

theorem parseLogLoop_error (folder : Str) (k : Nat) :
    ∀ (fs : List Str) (acc : List Commit), k < fs.length / 6 →
      atoi (fs.getD (6 * k + 3) []) = none →
      (∀ j, j < k → (atoi (fs.getD (6 * j + 3) [])).isSome = true) →
      parseLogLoop folder fs acc =
        .error (illegalCommitTime (fs.getD (6 * k + 3) []) folder) := by
  induction k with
  | zero =>
    intro fs acc hlen hbad _
    rcases fs with _ | ⟨a, _ | ⟨b, _ | ⟨c, _ | ⟨d, _ | ⟨e, _ | ⟨g, rest⟩⟩⟩⟩⟩⟩
    all_goals try (simp only [List.length_cons, List.length_nil] at hlen; omega)
    have hbad2 : atoi d = none := by simpa [List.getD] using hbad
    rw [parseLogLoop]
    simp [hbad2, List.getD]
  | succ k ih =>
    intro fs acc hlen hbad hvalid
    rcases fs with _ | ⟨a, _ | ⟨b, _ | ⟨c, _ | ⟨d, _ | ⟨e, _ | ⟨g, rest⟩⟩⟩⟩⟩⟩
    all_goals try (simp only [List.length_cons, List.length_nil] at hlen; omega)
    have h0 := hvalid 0 (by omega)
    simp only [Nat.mul_zero, Nat.zero_add] at h0
    obtain ⟨v, hv⟩ := Option.isSome_iff_exists.mp h0
    have hv2 : atoi d = some v := by simpa [List.getD] using hv
    have hk6 : 6 * (k + 1) + 3 = 6 * k + 3 + 6 := by omega
    rw [hk6, getD_shift6] at hbad ⊢
    rw [parseLogLoop_step folder a b c d e g rest acc v hv2]
    apply ih rest _ _ hbad
    · intro j hj
      have := hvalid (j + 1) (by omega)
      have e2 : 6 * (j + 1) + 3 = 6 * j + 3 + 6 := by omega
      rwa [e2, getD_shift6] at this
    · simp only [List.length_cons] at hlen
      omega

theorem first_bad_time (fs : List Str) (m : Nat)
    (h : ∃ k, k < m ∧ atoi (fs.getD (6 * k + 3) []) = none) :
    ∃ k, k < m ∧ atoi (fs.getD (6 * k + 3) []) = none ∧
      ∀ j, j < k → (atoi (fs.getD (6 * j + 3) [])).isSome = true := by
  classical
  refine ⟨Nat.find h, (Nat.find_spec h).1, (Nat.find_spec h).2, ?_⟩
  intro j hj
  have hmin := Nat.find_min h hj
  have hjm : j < m := lt_trans hj (Nat.find_spec h).1
  cases hs : atoi (fs.getD (6 * j + 3) []) with
  | none => exact absurd ⟨hjm, hs⟩ hmin
  | some v => rfl

/-! ## Log parser: the claims -/

/-- C5: when the fourth field of every complete group of six fields is a valid
integer, the parsing step of `logRepo` succeeds and returns one record per
complete group, in order, the fields after the last complete group being
dropped; record `k` is made of fields `6k` to `6k+5`, the hash trimmed, the
fourth field read as epoch seconds, the others verbatim. -/
theorem parseLog_groups (folder raw : Str)
    (hvalid : ∀ k, k < (split raw '\x00').length / 6 →
      (atoi ((split raw '\x00').getD (6 * k + 3) [])).isSome = true) :
    parseLog folder raw =
      .ok ((List.range ((split raw '\x00').length / 6)).map
        (recordAt (split raw '\x00'))) := by
  unfold parseLog
  rw [parseLogLoop_ok folder _ (split raw '\x00') [] rfl hvalid]
  simp

/-- C5, witness: thirteen fields, two complete records and one trailing field,
give exactly two records. -/
theorem parseLog_groups_witness :
    (split "h1\x00a1\x00c1\x0011\x00s1\x00b1\x00\nh2\x00a2\x00c2\x0022\x00s2\x00b2\x00\n".toList
      '\x00').length = 13 ∧
    parseLog "dir".toList
        "h1\x00a1\x00c1\x0011\x00s1\x00b1\x00\nh2\x00a2\x00c2\x0022\x00s2\x00b2\x00\n".toList =
      .ok [{ Hash := "h1".toList, AuthorName := "a1".toList, CommitterName := "c1".toList,
             CommitWhen := timeUnix 11, Subject := "s1".toList, Message := "b1".toList },
           { Hash := "h2".toList, AuthorName := "a2".toList, CommitterName := "c2".toList,
             CommitWhen := timeUnix 22, Subject := "s2".toList, Message := "b2".toList }] :=
  ⟨by decide,
   (parseLog_groups "dir".toList
      "h1\x00a1\x00c1\x0011\x00s1\x00b1\x00\nh2\x00a2\x00c2\x0022\x00s2\x00b2\x00\n".toList
      (by decide)).trans (by decide)⟩

/-- C7: the parsing step of `logRepo` fails exactly when the fourth field of some
complete group of six fields is not a valid integer; the result is then an
error, with no records, whose text is `illegal commit time: ` followed by the
first such field, `, folder = ` and the folder. -/
theorem parseLog_error_iff (folder raw : Str) :
    ((∃ e, parseLog folder raw = .error e) ↔
      ∃ k, k < (split raw '\x00').length / 6 ∧
        atoi ((split raw '\x00').getD (6 * k + 3) []) = none) ∧
    ∀ e, parseLog folder raw = .error e →
      ∃ k, k < (split raw '\x00').length / 6 ∧
        atoi ((split raw '\x00').getD (6 * k + 3) []) = none ∧
        (∀ j, j < k → (atoi ((split raw '\x00').getD (6 * j + 3) [])).isSome = true) ∧
        e = "illegal commit time: ".toList ++ (split raw '\x00').getD (6 * k + 3) [] ++
              ", folder = ".toList ++ folder := by
  unfold parseLog
  generalize split raw '\x00' = fs
  have key : ∀ e, parseLogLoop folder fs [] = .error e →
      ∃ k, k < fs.length / 6 ∧ atoi (fs.getD (6 * k + 3) []) = none ∧
        (∀ j, j < k → (atoi (fs.getD (6 * j + 3) [])).isSome = true) ∧
        e = "illegal commit time: ".toList ++ fs.getD (6 * k + 3) [] ++
              ", folder = ".toList ++ folder := by
    intro e he
    by_cases h : ∃ k, k < fs.length / 6 ∧ atoi (fs.getD (6 * k + 3) []) = none
    · obtain ⟨k, hk, hbad, hmin⟩ := first_bad_time fs _ h
      refine ⟨k, hk, hbad, hmin, ?_⟩
      rw [parseLogLoop_error folder k fs [] hk hbad hmin] at he
      exact (Except.error.inj he).symm
    · have hall : ∀ k, k < fs.length / 6 →
          (atoi (fs.getD (6 * k + 3) [])).isSome = true := by
        intro k hk
        cases hs : atoi (fs.getD (6 * k + 3) []) with
        | none => exact absurd ⟨k, hk, hs⟩ h
        | some v => rfl
      rw [parseLogLoop_ok folder _ fs [] rfl hall] at he
      cases he
  refine ⟨⟨?_, ?_⟩, key⟩
  · rintro ⟨e, he⟩
    obtain ⟨k, hk, hbad, -, -⟩ := key e he
    exact ⟨k, hk, hbad⟩
  · intro h
    obtain ⟨k, hk, hbad, hmin⟩ := first_bad_time fs _ h
    exact ⟨_, parseLogLoop_error folder k fs [] hk hbad hmin⟩

/-- C7, witness: a log whose second record has the commit time `x1`. -/
theorem parseLog_error_iff_witness :
    ∃ e, parseLog "dir".toList
      "h\x00a\x00c\x0050\x00s\x00b\x00\nh\x00a\x00c\x00x1\x00s\x00b\x00\n".toList = .error e :=
  (parseLog_error_iff "dir".toList
    "h\x00a\x00c\x0050\x00s\x00b\x00\nh\x00a\x00c\x00x1\x00s\x00b\x00\n".toList).1.mpr
    ⟨1, by decide, by decide⟩

/-! ## Decimal text: lemmas -/

theorem digitVal_ofNat (n : Nat) (h : n < 10) : digitVal (Char.ofNat (48 + n)) = some n := by
  interval_cases n <;> rfl

theorem formatNatLoop_append (fuel n : Nat) (acc : Str) :
    formatNatLoop fuel n acc = formatNatLoop fuel n [] ++ acc := by
  induction fuel generalizing n acc with
  | zero => simp [formatNatLoop]
  | succ fuel ih =>
    unfold formatNatLoop
    split
    · simp
    · rw [ih, ih (n / 10) [Char.ofNat (48 + n % 10)]]
      simp

theorem formatNatLoop_digits (fuel n : Nat) :
    ∀ c ∈ formatNatLoop fuel n [], (digitVal c).isSome = true := by
  induction fuel generalizing n with
  | zero => simp [formatNatLoop]
  | succ fuel ih =>
    unfold formatNatLoop
    split
    · rename_i hlt
      intro c hc
      simp only [List.mem_singleton] at hc
      rw [hc, digitVal_ofNat n hlt]
      rfl
    · rw [formatNatLoop_append]
      intro c hc
      rcases List.mem_append.mp hc with h | h
      · exact ih _ c h
      · simp only [List.mem_singleton] at h
        rw [h, digitVal_ofNat (n % 10) (Nat.mod_lt _ (by norm_num))]
        rfl

theorem formatNatLoop_ne_nil (fuel n : Nat) : formatNatLoop (fuel + 1) n [] ≠ [] := by
  unfold formatNatLoop
  split
  · simp
  · rw [formatNatLoop_append]
    simp

theorem formatNatLoop_value (fuel n : Nat) (h : n < fuel) :
    decimalValue (formatNatLoop fuel n []) = n := by
  induction fuel generalizing n with
  | zero => omega
  | succ fuel ih =>
    unfold formatNatLoop
    split
    · rename_i hlt
      simp [decimalValue, digitVal_ofNat n hlt]
    · rw [formatNatLoop_append]
      have hq : n / 10 < fuel := by omega
      have := ih (n / 10) hq
      unfold decimalValue at this ⊢
      rw [List.foldl_append, this]
      simp only [List.foldl_cons, List.foldl_nil,
        digitVal_ofNat (n % 10) (Nat.mod_lt _ (by norm_num)), Option.getD_some]
      omega

theorem formatNat_isDecimal (n : Nat) : isDecimal (formatNat n) = true := by
  unfold isDecimal formatNat
  simp only [Bool.and_eq_true, Bool.not_eq_true', List.all_eq_true]
  refine ⟨?_, formatNatLoop_digits _ _⟩
  have := formatNatLoop_ne_nil n n
  cases h : formatNatLoop (n + 1) n [] with
  | nil => exact absurd h this
  | cons c cs => rfl

theorem parseUint_formatNat (n : Nat) (h : n < 2 ^ 64) :
    parseUint (formatNat n) 64 = some n := by
  have hv : decimalValue (formatNat n) = n := formatNatLoop_value (n + 1) n (by omega)
  have := parseUint_decimal (formatNat n) 64 (by norm_num) (formatNat_isDecimal n)
    (by rw [hv]; exact h)
  rw [this, hv]

theorem atoi_formatNat (n : Nat) (h : n < 2 ^ 63) : atoi (formatNat n) = some (n : Int) := by
  have hp := parseUint_formatNat n (by omega)
  have hd := formatNatLoop_digits (n + 1) n
  have hne := formatNatLoop_ne_nil n n
  unfold formatNat at hp ⊢
  cases hs : formatNatLoop (n + 1) n [] with
  | nil => exact absurd hs hne
  | cons c cs =>
    rw [hs] at hp hd
    have hc := hd c (by simp)
    have hminus : c ≠ '-' := by
      intro e
      rw [e] at hc
      exact absurd hc (by decide)
    have hplus : c ≠ '+' := by
      intro e
      rw [e] at hc
      exact absurd hc (by decide)
    have hlt : ¬ (n ≥ 2 ^ 63) := by omega
    simp only [atoi, hminus, hplus, if_false, hp, hlt]

theorem atoi_formatInt (z : Int) (hlo : -(2 ^ 63) ≤ z) (hhi : z < 2 ^ 63) :
    atoi (formatInt z) = some z := by
  cases z with
  | ofNat n =>
    have : n < 2 ^ 63 := by
      have h := hhi
      simp only [Int.ofNat_eq_coe] at h
      exact_mod_cast h
    simpa [formatInt] using atoi_formatNat n this
  | negSucc m =>
    have hm : m + 1 ≤ 2 ^ 63 := by
      have h := hlo
      rw [Int.negSucc_eq] at h
      have h2 : ((m : Int) + 1) ≤ 2 ^ 63 := by linarith
      exact_mod_cast h2
    have hp := parseUint_formatNat (m + 1) (by omega)
    have hgt : ¬ (m + 1 > 2 ^ 63) := by omega
    simp only [formatInt, atoi, if_true, hp, hgt, if_false]
    rw [Int.negSucc_eq]
    simp

theorem formatInt_no_nul (z : Int) : '\x00' ∉ formatInt z := by
  have key : ∀ n, '\x00' ∉ formatNat n := by
    intro n hmem
    have := formatNatLoop_digits (n + 1) n _ hmem
    exact absurd this (by decide)
  cases z with
  | ofNat n => exact key n
  | negSucc m =>
    intro hmem
    simp only [formatInt, List.mem_cons] at hmem
    rcases hmem with h | h
    · exact absurd h (by decide)
    · exact key _ h

/-! ## Log round trip -/

theorem dropWhile_blank_append (ws s : Str) (h : ∀ c ∈ ws, isSpace c = true) :
    (ws ++ s).dropWhile isSpace = s.dropWhile isSpace := by
  induction ws with
  | nil => rfl
  | cons c cs ih =>
    have hc : isSpace c = true := h c (by simp)
    have hcs : ∀ x ∈ cs, isSpace x = true := fun x hx => h x (by simp [hx])
    simp [List.dropWhile, hc, ih hcs]

theorem dropWhile_of_head (s : Str) (h : s.head?.all (fun c => !isSpace c) = true) :
    s.dropWhile isSpace = s := by
  cases s with
  | nil => rfl
  | cons c cs =>
    have hc : isSpace c = false := by simpa using h
    simp [List.dropWhile, hc]

theorem trimSpace_blank_append (ws s : Str) (h : ∀ c ∈ ws, isSpace c = true)
    (hs : trimmed s = true) : trimSpace (ws ++ s) = s := by
  simp only [trimmed, Bool.and_eq_true] at hs
  unfold trimSpace
  rw [dropWhile_blank_append ws s h, dropWhile_of_head s hs.1,
    dropWhile_of_head s.reverse (by rw [List.head?_reverse]; exact hs.2), List.reverse_reverse]

theorem encodeLog_cons (c : Commit) (cs : List Commit) :
    encodeLog (c :: cs) = encodeCommit c ++ encodeLog cs := by
  simp [encodeLog]

/-! ## Instants: lemmas -/

theorem wrapInt64_range (x : Int) :
    -9223372036854775808 ≤ wrapInt64 x ∧ wrapInt64 x < 9223372036854775808 := by
  unfold wrapInt64
  omega

theorem wrapInt64_of_range (x : Int) (hlo : -9223372036854775808 ≤ x)
    (hhi : x < 9223372036854775808) : wrapInt64 x = x := by
  unfold wrapInt64
  omega

theorem unixSeconds_range (t : Time) :
    -9223372036854775808 ≤ unixSeconds t ∧ unixSeconds t < 9223372036854775808 :=
  wrapInt64_range _

theorem timeUnix_isTime (sec : Int) : isTime (timeUnix sec) := by
  unfold isTime timeUnix
  rw [Int.mul_ediv_cancel _ (by norm_num)]
  exact wrapInt64_range _

theorem timeUnix_unixSeconds (t : Int) (hmod : t % 1000000000 = 0)
    (hlo : -9223372036854775808 ≤ t / 1000000000)
    (hhi : t / 1000000000 < 9223372036854775808) : timeUnix (unixSeconds t) = t := by
  have hq : wrapInt64 (wrapInt64 (t / 1000000000 - unixToInternal) + unixToInternal) =
      t / 1000000000 := by
    unfold wrapInt64 unixToInternal
    omega
  unfold timeUnix unixSeconds
  rw [hq]
  exact Int.ediv_mul_cancel (Int.dvd_of_emod_eq_zero hmod)

theorem unixNano_unwrapped (t : Int) (h : unwrapped t) :
    unixNano t = t - 62135596800000000000 := by
  obtain ⟨⟨hlo, hhi⟩, hu⟩ := h
  have hlo' : (-9223372036854775808 : Int) ≤ t / 1000000000 := hlo
  have hhi' : t / 1000000000 < (9223372036854775808 : Int) := hhi
  unfold unixNano
  unfold unixSeconds wrapInt64 unixToInternal at hu ⊢
  omega

theorem split_encodeCommit (ws : Str) (c : Commit) (rest : Str) (hws : '\x00' ∉ ws)
    (hc : encodable c) :
    split (ws ++ (encodeCommit c ++ rest)) '\x00' =
      (ws ++ c.Hash) :: c.AuthorName :: c.CommitterName ::
        formatInt (unixSeconds c.CommitWhen) :: c.Subject :: c.Message ::
        split ('\n' :: rest) '\x00' := by
  obtain ⟨h1, h2, h3, h4, h5, -, -, -, -⟩ := hc
  have h0 : '\x00' ∉ ws ++ c.Hash := by
    simp only [List.mem_append, not_or]
    exact ⟨hws, h1⟩
  have e : ws ++ (encodeCommit c ++ rest) =
      (ws ++ c.Hash) ++ '\x00' :: (c.AuthorName ++ '\x00' :: (c.CommitterName ++ '\x00' ::
        (formatInt (unixSeconds c.CommitWhen) ++ '\x00' :: (c.Subject ++ '\x00' ::
          (c.Message ++ '\x00' :: ('\n' :: rest)))))) := by
    simp [encodeCommit]
  rw [e, split_append_sep _ _ _ h0, split_append_sep _ _ _ h2, split_append_sep _ _ _ h3,
    split_append_sep _ _ _ (formatInt_no_nul _), split_append_sep _ _ _ h4,
    split_append_sep _ _ _ h5]

theorem parseLogLoop_encodeLog (folder : Str) (cs : List Commit) :
    ∀ (ws : Str) (acc : List Commit), (∀ c ∈ ws, isSpace c = true) → '\x00' ∉ ws →
      (∀ c ∈ cs, encodable c) →
      parseLogLoop folder (split (ws ++ encodeLog cs) '\x00') acc =
        .ok (acc ++ cs.map logRecord) := by
  induction cs with
  | nil =>
    intro ws acc _ hnul _
    have : split (ws ++ encodeLog []) '\x00' = [ws] := by
      simpa [encodeLog] using split_of_not_mem ws '\x00' hnul
    rw [this]
    simp [parseLogLoop]
  | cons c cs ih =>
    intro ws acc hws hnul hall
    have hc : encodable c := hall c (by simp)
    have hcs : ∀ x ∈ cs, encodable x := fun x hx => hall x (by simp [hx])
    obtain ⟨-, -, -, -, -, htrim, hmod, hlo, hhi⟩ := hc
    have hr := unixSeconds_range c.CommitWhen
    have hv := atoi_formatInt (unixSeconds c.CommitWhen) (by norm_num; exact hr.1)
      (by norm_num; exact hr.2)
    have htime := timeUnix_unixSeconds c.CommitWhen hmod hlo hhi
    rw [encodeLog_cons, split_encodeCommit ws c _ hnul (hall c (by simp)),
      parseLogLoop_step folder _ _ _ _ _ _ _ acc _ hv]
    have hrec : recordAt ((ws ++ c.Hash) :: c.AuthorName :: c.CommitterName ::
        formatInt (unixSeconds c.CommitWhen) :: c.Subject :: c.Message ::
        split ('\n' :: encodeLog cs) '\x00') 0 = logRecord c := by
      simp [recordAt, logRecord, hv, htime, trimSpace_blank_append ws c.Hash hws htrim]
    rw [hrec]
    have := ih ['\n'] (acc ++ [logRecord c]) (by decide) (by decide) hcs
    simp only [List.singleton_append] at this
    rw [this]
    simp

/-- C6: for commits whose texts have no NUL byte, whose hash has no surrounding
white space and whose commit time is a whole number of seconds in the range of
`int64`, writing each as hash, author, committer, decimal epoch seconds, subject
and body, each followed by a NUL byte, with a line feed after each record, and
parsing the concatenation, returns the same records in the same order: the six
fields of each are equal, project, state and score being unset. -/
theorem parseLog_encodeLog (folder : Str) (cs : List Commit)
    (h : ∀ c ∈ cs, encodable c) :
    parseLog folder (encodeLog cs) = .ok (cs.map logRecord) := by
  have := parseLogLoop_encodeLog folder cs [] [] (by simp) (by simp) h
  simpa [parseLog] using this

/-- C6, witness: two commits, the first with a body of two lines, the second
from before the epoch. -/
theorem parseLog_encodeLog_witness :
    parseLog "dir".toList
      (encodeLog
        [{ Hash := "ab12".toList, AuthorName := "A B".toList, CommitterName := "C".toList,
           CommitWhen := timeUnix 1700000000, Subject := "fix".toList,
           Message := "one\ntwo\n".toList },
         { Hash := "cd34".toList, AuthorName := "D".toList, CommitterName := "E".toList,
           CommitWhen := timeUnix (-5), Subject := [], Message := [] }]) =
      .ok [{ Hash := "ab12".toList, AuthorName := "A B".toList, CommitterName := "C".toList,
             CommitWhen := timeUnix 1700000000, Subject := "fix".toList,
             Message := "one\ntwo\n".toList },
           { Hash := "cd34".toList, AuthorName := "D".toList, CommitterName := "E".toList,
             CommitWhen := timeUnix (-5), Subject := [], Message := [] }] :=
  parseLog_encodeLog "dir".toList _ (by decide)

/-! ## Orchestrator: lemmas -/

theorem cursorAfter_ge_since (since : Time) (log : List Commit) :
    since ≤ cursorAfter since log := by
  unfold cursorAfter
  induction log generalizing since with
  | nil => simp
  | cons c log ih =>
    simp only [List.foldl_cons]
    exact le_trans (le_max_left _ _) (ih _)

theorem cursorAfter_ge_mem (since : Time) (log : List Commit) :
    ∀ c ∈ log, c.CommitWhen ≤ cursorAfter since log := by
  induction log generalizing since with
  | nil => simp
  | cons d log ih =>
    intro c hc
    rcases List.mem_cons.mp hc with e | e
    · subst e
      exact le_trans (le_max_right since _) (cursorAfter_ge_since _ log)
    · exact ih _ c e

theorem cursorAfter_eq (since : Time) (log : List Commit) :
    cursorAfter since log = since ∨ ∃ c ∈ log, c.CommitWhen = cursorAfter since log := by
  induction log generalizing since with
  | nil => exact Or.inl rfl
  | cons d log ih =>
    have hstep : cursorAfter since (d :: log) = cursorAfter (max since d.CommitWhen) log := rfl
    rw [hstep]
    rcases ih (max since d.CommitWhen) with h | ⟨c, hc, hce⟩
    · rcases max_choice since d.CommitWhen with hm | hm
      · exact Or.inl (by rw [h, hm])
      · exact Or.inr ⟨d, by simp, by rw [h, hm]⟩
    · exact Or.inr ⟨c, by simp [hc], hce⟩

theorem commitLoop_time (w : World) (prj folder : Str) (log : List Commit) :
    ∀ (t : Time) (acc : List Commit) (t' : Time) (cs : List Commit),
      commitLoop w prj folder log t acc = .ok (t', cs) → t' = cursorAfter t log := by
  induction log with
  | nil =>
    intro t acc t' cs h
    simp only [commitLoop, Except.ok.injEq, Prod.mk.injEq] at h
    exact h.1.symm
  | cons c log ih =>
    intro t acc t' cs h
    rw [commitLoop] at h
    cases hd : diffRepo (w.gitDiff folder c.Hash) with
    | error e => simp [hd] at h
    | ok diff =>
      cases hs : w.slatScore diff with
      | error e => simp [hd, hs] at h
      | ok score =>
        simp only [hd, hs] at h
        have := ih _ _ _ _ h
        rw [this]
        have hstep : cursorAfter t (c :: log) = cursorAfter (max t c.CommitWhen) log := rfl
        rw [hstep]
        have hmax : (if c.CommitWhen > t then c.CommitWhen else t) = max t c.CommitWhen := by
          by_cases hlt : t < c.CommitWhen
          · rw [if_pos hlt, max_eq_right (le_of_lt hlt)]
          · rw [if_neg hlt, max_eq_left (not_lt.mp hlt)]
        exact congrArg (fun x => cursorAfter x log) hmax

theorem syncProject_done (w : World) (conf : Config) (db db1 : DB) (prj : Str)
    (pc : ConfigProject) (h : syncProject w conf db prj pc = (none, db1)) :
    ∃ log, logRepo (repoFolder w conf pc)
        (w.gitLog (repoFolder w conf pc) (sinceOf w db prj)) = .ok log ∧
      db1.fetchState prj = some (cursorAfter (sinceOf w db prj) log) ∧
      ∀ p, p ≠ prj → db1.fetchState p = db.fetchState p := by
  unfold syncProject at h
  cases h1 : w.dbError (.getFetchState prj) with
  | some e => simp [h1] at h
  | none =>
    simp only [h1] at h
    cases h2 : logRepo (repoFolder w conf pc)
        (w.gitLog (repoFolder w conf pc) (sinceOf w db prj)) with
    | error e => simp [h2] at h
    | ok log =>
      simp only [h2] at h
      cases h3 : commitLoop w prj (repoFolder w conf pc) log (sinceOf w db prj) [] with
      | error e => simp [h3] at h
      | ok r =>
        obtain ⟨t, cs⟩ := r
        simp only [h3] at h
        cases h4 : w.dbError (.storeCommits cs) with
        | some e => simp [h4] at h
        | none =>
          simp only [h4] at h
          cases h5 : w.dbError (.updateFetchState prj t) with
          | some e => simp [h5] at h
          | none =>
            simp only [h5, Prod.mk.injEq, true_and] at h
            have ht := commitLoop_time w prj _ log _ _ _ _ h3
            subst h
            refine ⟨log, rfl, ?_, ?_⟩
            · simp [DB.updateFetchState, ht]
            · intro p hp
              simp [DB.updateFetchState, DB.storeCommits, hp]

theorem syncProject_mono (w : World) (conf : Config) (db : DB) (prj : Str)
    (pc : ConfigProject) (p : Str) (c : Time) (hc : db.fetchState p = some c) :
    ∃ c', (syncProject w conf db prj pc).2.fetchState p = some c' ∧ c ≤ c' := by
  unfold syncProject
  cases h1 : w.dbError (.getFetchState prj) with
  | some e => exact ⟨c, hc, le_refl _⟩
  | none =>
    simp only
    cases h2 : logRepo (repoFolder w conf pc)
        (w.gitLog (repoFolder w conf pc) (sinceOf w db prj)) with
    | error e => exact ⟨c, hc, le_refl _⟩
    | ok log =>
      simp only
      cases h3 : commitLoop w prj (repoFolder w conf pc) log (sinceOf w db prj) [] with
      | error e => exact ⟨c, hc, le_refl _⟩
      | ok r =>
        obtain ⟨t, cs⟩ := r
        simp only
        cases h4 : w.dbError (.storeCommits cs) with
        | some e => exact ⟨c, hc, le_refl _⟩
        | none =>
          simp only
          cases h5 : w.dbError (.updateFetchState prj t) with
          | some e => exact ⟨c, hc, le_refl _⟩
          | none =>
            simp only [DB.updateFetchState, DB.storeCommits]
            by_cases hp : p = prj
            · subst hp
              refine ⟨t, by simp, ?_⟩
              have ht := commitLoop_time w p _ log _ _ _ _ h3
              have hs : sinceOf w db p = c := by simp [sinceOf, hc]
              rw [ht, ← hs]
              exact cursorAfter_ge_since _ _
            · exact ⟨c, by simp [hp, hc], le_refl _⟩

theorem updateCommitsLoop_mono (w : World) (conf : Config) (ps : List (Str × ConfigProject)) :
    ∀ (db : DB) (p : Str) (c : Time), db.fetchState p = some c →
      ∃ c', (updateCommitsLoop w conf ps db).2.fetchState p = some c' ∧ c ≤ c' := by
  induction ps with
  | nil =>
    intro db p c hc
    exact ⟨c, hc, le_refl _⟩
  | cons q ps ih =>
    intro db p c hc
    obtain ⟨prj, pc⟩ := q
    obtain ⟨c1, hc1, hle1⟩ := syncProject_mono w conf db prj pc p c hc
    rw [updateCommitsLoop]
    cases hsync : syncProject w conf db prj pc with
    | mk o db1 =>
      rw [hsync] at hc1
      cases o with
      | some e => exact ⟨c1, hc1, hle1⟩
      | none =>
        obtain ⟨c2, hc2, hle2⟩ := ih db1 p c1 hc1
        exact ⟨c2, hc2, le_trans hle1 hle2⟩

theorem sinceOf_congr (w : World) (db db1 : DB) (prj : Str)
    (h : db1.fetchState prj = db.fetchState prj) : sinceOf w db1 prj = sinceOf w db prj := by
  simp [sinceOf, h]

theorem updateCommitsLoop_done (w : World) (conf : Config) (ps : List (Str × ConfigProject)) :
    ∀ (db db' : DB), (ps.map Prod.fst).Nodup → updateCommitsLoop w conf ps db = (none, db') →
      (∀ prj pc, (prj, pc) ∈ ps →
        ∃ log, logRepo (repoFolder w conf pc)
            (w.gitLog (repoFolder w conf pc) (sinceOf w db prj)) = .ok log ∧
          db'.fetchState prj = some (cursorAfter (sinceOf w db prj) log)) ∧
      ∀ p, p ∉ ps.map Prod.fst → db'.fetchState p = db.fetchState p := by
  induction ps with
  | nil =>
    intro db db' _ h
    simp only [updateCommitsLoop, Prod.mk.injEq, true_and] at h
    subst h
    simp
  | cons q ps ih =>
    intro db db' hnd h
    obtain ⟨p0, pc0⟩ := q
    simp only [List.map_cons, List.nodup_cons] at hnd
    obtain ⟨hp0, hnd'⟩ := hnd
    rw [updateCommitsLoop] at h
    cases hsync : syncProject w conf db p0 pc0 with
    | mk o db1 =>
      rw [hsync] at h
      cases o with
      | some e => simp at h
      | none =>
        simp only at h
        obtain ⟨log0, hlog0, hfs0, hother0⟩ := syncProject_done w conf db db1 p0 pc0 hsync
        obtain ⟨hin, hout⟩ := ih db1 db' hnd' h
        refine ⟨?_, ?_⟩
        · intro prj pc hmem
          rcases List.mem_cons.mp hmem with e | e
          · obtain ⟨rfl, rfl⟩ := Prod.mk.inj e
            exact ⟨log0, hlog0, by rw [hout prj hp0, hfs0]⟩
          · have hkey : prj ∈ ps.map Prod.fst := List.mem_map.mpr ⟨(prj, pc), e, rfl⟩
            have hne : prj ≠ p0 := fun e2 => hp0 (e2 ▸ hkey)
            obtain ⟨log, hlog, hfs⟩ := hin prj pc e
            rw [sinceOf_congr w db db1 prj (hother0 prj hne)] at hlog hfs
            exact ⟨log, hlog, hfs⟩
        · intro p hp
          simp only [List.map_cons, List.mem_cons, not_or] at hp
          rw [hout p hp.2, hother0 p hp.1]

/-! ## Orchestrator and diff gateway: the claims -/

/-- C10: `diffRepo` returns an empty `Diff` and no error when `git diff` exits
with code 128, the error `diff command failed: ..., out=` followed by the
captured standard error for any other exit code that is not zero, and the result
of `parseNumStat` on the standard output for exit code zero. -/
theorem diffRepo_cases (run : CmdResult) :
    (run.exitCode = 128 → diffRepo run = .ok { Stats := [] }) ∧
    (run.exitCode ≠ 0 → run.exitCode ≠ 128 →
      diffRepo run =
        .error ("diff command failed: ".toList ++ run.status ++ ", out=".toList ++
          run.stderr)) ∧
    (run.exitCode = 0 → diffRepo run = parseNumStat run.stdout) := by
  refine ⟨?_, ?_, ?_⟩
  · intro h
    simp [diffRepo, h]
  · intro h0 h128
    simp [diffRepo, h0, h128, diffCommandFailed]
  · intro h
    unfold diffRepo
    simp only [h, ne_eq, not_true_eq_false, if_false]
    cases parseNumStat run.stdout <;> rfl

/-- C10, witness: the diff of a root commit, exit code 128. -/
theorem diffRepo_cases_witness :
    diffRepo { exitCode := 128, stdout := [], stderr := "fatal: bad revision".toList,
               status := "exit status 128".toList } = .ok { Stats := [] } :=
  (diffRepo_cases { exitCode := 128, stdout := [], stderr := "fatal: bad revision".toList,
                    status := "exit status 128".toList }).1 (by decide)

/-! ## Path reassembly -/

theorem isSpace_of_digit (c : Char) (h : (digitVal c).isSome = true) : isSpace c = false := by
  unfold digitVal at h
  split at h
  · rename_i hc
    unfold isSpace
    simp only [Bool.or_eq_false_iff, Bool.and_eq_false_iff, decide_eq_false_iff_not,
      beq_eq_false_iff_ne, ne_eq]
    refine ⟨⟨⟨⟨⟨⟨⟨⟨⟨⟨?_, ?_⟩, ?_⟩, ?_⟩, ?_⟩, ?_⟩, ?_⟩, ?_⟩, ?_⟩, ?_⟩, ?_⟩ <;> omega
  · simp at h

theorem isToken_of_isDecimal (tok : Str) (h : isDecimal tok = true) : isToken tok = true := by
  simp only [isDecimal, Bool.and_eq_true, List.all_eq_true] at h
  simp only [isToken, Bool.and_eq_true, List.all_eq_true]
  refine ⟨h.1, fun c hc => ?_⟩
  rw [isSpace_of_digit c (h.2 c hc)]
  rfl

theorem not_mem_token (tok : Str) (h : isToken tok = true) : '\n' ∉ tok := by
  intro hmem
  have := ((isToken_iff tok).mp h).2 _ hmem
  exact absurd this (by decide)

theorem layout_spaced (lead p : Str) (ps : List Str) :
    layout lead (spaced (p :: ps)) = lead ++ List.intercalate [' '] (p :: ps) := by
  induction ps generalizing lead p with
  | nil => simp [spaced, layout, List.intercalate]
  | cons q qs ih =>
    have h := ih [' '] q
    rw [intercalate_space] at h ⊢
    simp only [spaced, layout, h]
    simp

theorem wellLaid_spaced (p : Str) (ps : List Str) (h : ∀ t ∈ p :: ps, isToken t = true) :
    wellLaid (spaced (p :: ps)) = true := by
  induction ps generalizing p with
  | nil =>
    have := h p (by simp)
    simp [spaced, wellLaid, this, isBlank]
  | cons q qs ih =>
    have hp := h p (by simp)
    have hq := ih q (fun t ht => h t (by simp [List.mem_cons.mp ht]))
    simp only [spaced] at hq ⊢
    cases hs : spaced (q :: qs) with
    | nil => cases qs <;> simp [spaced] at hs
    | cons x xs =>
      rw [hs] at hq
      simp [wellLaid, hp, hq, isBlank, isSpace]

theorem map_fst_spaced (toks : List Str) : (spaced toks).map Prod.fst = toks := by
  induction toks with
  | nil => rfl
  | cons p ps ih =>
    cases ps with
    | nil => rfl
    | cons q qs => simpa [spaced] using ih

theorem parseNumStat_of_fields (line ta td p : Str) (ps : List Str) (hline : '\n' ∉ line)
    (hf : fields line = ta :: td :: p :: ps)
    (ha : validCount ta = true) (hd : validCount td = true) :
    parseNumStat line =
      .ok { Stats := [{ Added := decimalValue ta, Deleted := decimalValue td,
                        File := List.intercalate [' '] (p :: ps) }] } := by
  simp only [validCount, Bool.and_eq_true, decide_eq_true_eq] at ha hd
  have hb : isBlank line = false := by
    cases hbl : isBlank line with
    | false => rfl
    | true =>
      have := (fields_eq_nil line).mpr ((isBlank_iff line).mp hbl)
      rw [hf] at this
      simp at this
  have hs : shortLine line = false := by
    cases hsl : shortLine line with
    | false => rfl
    | true =>
      have := ((shortLine_iff line).mp hsl).2
      rw [hf] at this
      simp only [List.length_cons] at this
      omega
  have he : lineEntry line = NumStat.mk (decimalValue ta) (decimalValue td)
      (List.intercalate [' '] (p :: ps)) := by
    unfold lineEntry
    rw [hf]
    simp only [List.getD_cons_zero, List.getD_cons_succ, List.drop_succ_cons, List.drop_zero]
    rw [parseUint_decimal ta 32 (by norm_num) ha.1 ha.2,
      parseUint_decimal td 32 (by norm_num) hd.1 hd.2, fileLoop_path]
  rw [parseNumStat_eq_loop, split_of_not_mem line _ hline, loop_entry line _ _ hb hs, he]
  rfl

theorem formatNat_value (n : Nat) : decimalValue (formatNat n) = n :=
  formatNatLoop_value (n + 1) n (by omega)

theorem numStatLine_eq_layout (a d : Nat) (p : Str) (ps : List Str) :
    numStatLine a d (List.intercalate [' '] (p :: ps)) =
      layout [] ((formatNat a, ['\t']) :: (formatNat d, ['\t']) :: spaced (p :: ps)) := by
  simp only [layout, layout_spaced, numStatLine]
  simp

/-- C11, as amended: for counts `a`, `d` below `2 ^ 32` and a path made of one or
more tokens without white space joined by single spaces, the numstat line
`a TAB d TAB path` parses to exactly one entry, with those counts and with
`File` equal to the path. -/
theorem parseNumStat_path (a d : Nat) (p : Str) (ps : List Str)
    (ha : a < 2 ^ 32) (hd : d < 2 ^ 32) (htok : ∀ t ∈ p :: ps, isToken t = true) :
    parseNumStat (numStatLine a d (List.intercalate [' '] (p :: ps))) =
      .ok { Stats := [{ Added := a, Deleted := d,
                        File := List.intercalate [' '] (p :: ps) }] } := by
  have hta := isToken_of_isDecimal _ (formatNat_isDecimal a)
  have htd := isToken_of_isDecimal _ (formatNat_isDecimal d)
  have hsp := wellLaid_spaced p ps htok
  have hlaid : wellLaid ((formatNat a, ['\t']) :: (formatNat d, ['\t']) :: spaced (p :: ps))
      = true := by
    cases hs : spaced (p :: ps) with
    | nil => cases ps <;> simp [spaced] at hs
    | cons x xs =>
      rw [hs] at hsp
      simp [wellLaid, hta, htd, hsp, isBlank, isSpace]
  have hf := fields_layout [] _ (by rfl) hlaid
  rw [← numStatLine_eq_layout] at hf
  simp only [List.map_cons, map_fst_spaced] at hf
  have hline : '\n' ∉ numStatLine a d (List.intercalate [' '] (p :: ps)) := by
    have h1 := not_mem_token _ hta
    have h2 := not_mem_token _ htd
    have h3 : ∀ t ∈ p :: ps, '\n' ∉ t := fun t ht => not_mem_token t (htok t ht)
    rw [intercalate_space]
    simp only [numStatLine, List.mem_append, List.mem_cons, List.mem_flatten, List.mem_map,
      not_or]
    refine ⟨h1, by decide, h2, by decide, h3 p (by simp), ?_⟩
    rintro ⟨l, ⟨q, hq, rfl⟩, hmem⟩
    rcases List.mem_cons.mp hmem with h | h
    · exact absurd h (by decide)
    · exact h3 q (by simp [hq]) h
  have hva : validCount (formatNat a) = true := by
    simp only [validCount, formatNat_isDecimal, formatNat_value, Bool.true_and,
      decide_eq_true_eq]
    exact ha
  have hvd : validCount (formatNat d) = true := by
    simp only [validCount, formatNat_isDecimal, formatNat_value, Bool.true_and,
      decide_eq_true_eq]
    exact hd
  rw [parseNumStat_of_fields _ _ _ p ps hline hf hva hvd, formatNat_value, formatNat_value]

/-- C11, witness: the line `3 TAB 5 TAB foo bar.txt`. -/
theorem parseNumStat_path_witness :
    parseNumStat (numStatLine 3 5 "foo bar.txt".toList) =
      .ok { Stats := [{ Added := 3, Deleted := 5, File := "foo bar.txt".toList }] } :=
  parseNumStat_path 3 5 "foo".toList ["bar.txt".toList] (by decide) (by decide) (by decide)

/-- C11, counterexample to the claim as stated: the path `a  b`, with two spaces,
is not empty and has no line feed, and the entry of `1 TAB 2 TAB a  b` has the
file `a b`, with one space; and for the path `a` and the added count
`4294967296` the entry has an empty file. -/
theorem parseNumStat_path_counterexample :
    ("a  b".toList ≠ [] ∧ '\n' ∉ "a  b".toList ∧
      parseNumStat (numStatLine 1 2 "a  b".toList) =
        .ok { Stats := [{ Added := 1, Deleted := 2, File := "a b".toList }] } ∧
      "a b".toList ≠ "a  b".toList) ∧
    (parseNumStat (numStatLine 4294967296 2 ['a']) =
        .ok { Stats := [{ Added := 0, Deleted := 0, File := [] }] } ∧
      ([] : Str) ≠ ['a']) := by
  decide

/-! ## Entries of a diff -/

theorem split_no_sep (s : Str) (sep : Char) : ∀ l ∈ split s sep, sep ∉ l := by
  induction s with
  | nil =>
    intro l hl
    simp only [split, List.mem_singleton] at hl
    simp [hl]
  | cons c cs ih =>
    intro l hl
    unfold split at hl
    by_cases hc : c = sep
    · simp only [hc, if_true, List.mem_cons] at hl
      rcases hl with h | h
      · simp [h]
      · exact ih l h
    · simp only [hc, if_false] at hl
      cases hs : split cs sep with
      | nil => exact absurd hs (split_ne_nil cs sep)
      | cons piece pieces =>
        rw [hs] at hl ih
        simp only [List.mem_cons] at hl
        rcases hl with h | h
        · have hp := ih piece (by simp)
          rw [h]
          simp only [List.mem_cons, not_or]
          exact ⟨fun e => hc e.symm, hp⟩
        · exact ih l (by simp [h])

theorem all_not_short (lines : List Str) (stats : List NumStat) (d : Diff)
    (h : parseNumStatLoop lines stats = .ok d) : ∀ l ∈ lines, shortLine l = false := by
  intro l hl
  cases hs : shortLine l with
  | false => rfl
  | true =>
    obtain ⟨pre, line, post, he, hpre, hline⟩ := first_short lines ⟨l, hl, hs⟩
    rw [he, loop_first_short pre post line stats hpre hline] at h
    cases h

theorem parseNumStat_single (l : Str) (hsep : '\n' ∉ l) (hb : isBlank l = false)
    (hs : shortLine l = false) : parseNumStat l = .ok { Stats := [lineEntry l] } := by
  rw [parseNumStat_eq_loop, split_of_not_mem l _ hsep, loop_entry l _ _ hb hs]
  rfl

theorem parseUint_lt (tok : Str) (v : Nat) (h : parseUint tok 32 = some v) : v < 2 ^ 32 := by
  have hv : validCount tok = true := by
    rw [← parseUint_isSome, h]
    rfl
  simp only [validCount, Bool.and_eq_true, decide_eq_true_eq] at hv
  rw [parseUint_decimal tok 32 (by norm_num) hv.1 hv.2] at h
  rw [← Option.some.inj h]
  exact hv.2

theorem lineEntry_range (line : Str) :
    (lineEntry line).Added < 2 ^ 32 ∧ (lineEntry line).Deleted < 2 ^ 32 := by
  unfold lineEntry
  cases ha : parseUint ((fields line).getD 0 []) 32 with
  | none =>
    simp only [degraded]
    norm_num
  | some a =>
    cases hd : parseUint ((fields line).getD 1 []) 32 with
    | none =>
      simp only [degraded]
      norm_num
    | some d => exact ⟨parseUint_lt _ a ha, parseUint_lt _ d hd⟩

/-- C15: when `parseNumStat` succeeds, there is one entry per line that is not
white space only, in the order of the lines, each being the entry that the
parser returns for that line alone; and a text whose lines are all blank parses
to an empty list of entries. -/
theorem parseNumStat_entries (raw : Str) :
    (∀ d, parseNumStat raw = .ok d →
      d.Stats.length = ((split raw '\n').filter (fun l => !isBlank l)).length ∧
      d.Stats = ((split raw '\n').filter (fun l => !isBlank l)).map lineEntry ∧
      ∀ l ∈ (split raw '\n').filter (fun l => !isBlank l),
        parseNumStat l = .ok { Stats := [lineEntry l] }) ∧
    ((∀ l ∈ split raw '\n', isBlank l = true) → parseNumStat raw = .ok { Stats := [] }) := by
  refine ⟨?_, ?_⟩
  · intro d h
    rw [parseNumStat_eq_loop] at h
    have hall := all_not_short _ _ d h
    rw [loop_ok _ _ hall] at h
    have hd : d.Stats = ((split raw '\n').filter (fun l => !isBlank l)).map lineEntry := by
      rw [← Except.ok.inj h]
      simp [lineEntries]
    refine ⟨by rw [hd, List.length_map], hd, ?_⟩
    intro l hl
    obtain ⟨hmem, hnb⟩ := List.mem_filter.mp hl
    have hb : isBlank l = false := by simpa using hnb
    exact parseNumStat_single l (split_no_sep raw '\n' l hmem) hb (hall l hmem)
  · intro hblank
    have hall : ∀ l ∈ split raw '\n', shortLine l = false := by
      intro l hl
      simp [shortLine, hblank l hl]
    rw [parseNumStat_eq_loop, loop_ok _ _ hall]
    have : (split raw '\n').filter (fun l => !isBlank l) = [] := by
      rw [List.filter_eq_nil_iff]
      intro l hl
      simp [hblank l hl]
    simp [lineEntries, this]

/-- C15, witness: four lines, the second empty and the third of spaces only, give
two entries, in the order of the first and the fourth line. -/
theorem parseNumStat_entries_witness :
    parseNumStat "1\t2\ta\n\n   \n3\t4\tb".toList =
      .ok { Stats := [{ Added := 1, Deleted := 2, File := ['a'] },
                      { Added := 3, Deleted := 4, File := ['b'] }] } ∧
    [{ Added := 1, Deleted := 2, File := ['a'] }, { Added := 3, Deleted := 4, File := ['b'] }] =
      ((split "1\t2\ta\n\n   \n3\t4\tb".toList '\n').filter (fun l => !isBlank l)).map
        lineEntry :=
  ⟨by decide,
   ((parseNumStat_entries "1\t2\ta\n\n   \n3\t4\tb".toList).1
      { Stats := [{ Added := 1, Deleted := 2, File := ['a'] },
                  { Added := 3, Deleted := 4, File := ['b'] }] } (by decide)).2.1⟩

/-- C17: every entry that `parseNumStat` returns has `Added` and `Deleted` below
`2 ^ 32`; and a single line of three tokens or more whose first or second token
is a decimal token of value `2 ^ 32` or more parses to the one entry
`(0, 0, "")`. -/
theorem parseNumStat_count_range :
    (∀ (raw : Str) (d : Diff), parseNumStat raw = .ok d →
      ∀ e ∈ d.Stats, e.Added < 2 ^ 32 ∧ e.Deleted < 2 ^ 32) ∧
    (∀ line : Str, '\n' ∉ line → 3 ≤ (fields line).length →
      (isDecimal ((fields line).getD 0 []) = true ∧
          2 ^ 32 ≤ decimalValue ((fields line).getD 0 [])) ∨
        (isDecimal ((fields line).getD 1 []) = true ∧
          2 ^ 32 ≤ decimalValue ((fields line).getD 1 [])) →
      parseNumStat line = .ok { Stats := [{ Added := 0, Deleted := 0, File := [] }] }) := by
  refine ⟨?_, ?_⟩
  · intro raw d h e he
    rw [parseNumStat_eq_loop] at h
    have hall := all_not_short _ _ d h
    rw [loop_ok _ _ hall] at h
    rw [← Except.ok.inj h] at he
    simp only [lineEntries, List.nil_append, List.mem_map] at he
    obtain ⟨l, -, rfl⟩ := he
    exact lineEntry_range l
  · intro line hsep h3 hbig
    have hb : isBlank line = false := by
      cases hbl : isBlank line with
      | false => rfl
      | true =>
        have := (fields_eq_nil line).mpr ((isBlank_iff line).mp hbl)
        rw [this] at h3
        simp at h3
    have hs : shortLine line = false := by
      cases hsl : shortLine line with
      | false => rfl
      | true =>
        have := ((shortLine_iff line).mp hsl).2
        omega
    have hbad : validCount ((fields line).getD 0 []) = false ∨
        validCount ((fields line).getD 1 []) = false := by
      rcases hbig with ⟨_, h⟩ | ⟨_, h⟩
      · left
        simp only [validCount, Bool.and_eq_false_iff, decide_eq_false_iff_not]
        right
        omega
      · right
        simp only [validCount, Bool.and_eq_false_iff, decide_eq_false_iff_not]
        right
        omega
    rw [parseNumStat_single line hsep hb hs, lineEntry_bad_count line hbad]
    rfl

/-- C17, witness: the entries of `7 TAB 8 TAB a` are below `2 ^ 32`, and the line
`1 TAB 4294967296 TAB a` gives the entry `(0, 0, "")`. -/
theorem parseNumStat_count_range_witness :
    (∀ e ∈ [({ Added := 7, Deleted := 8, File := ['a'] } : NumStat)],
      e.Added < 2 ^ 32 ∧ e.Deleted < 2 ^ 32) ∧
    parseNumStat "1\t4294967296\ta".toList =
      .ok { Stats := [{ Added := 0, Deleted := 0, File := [] }] } :=
  ⟨parseNumStat_count_range.1 "7\t8\ta".toList (Diff.mk [NumStat.mk 7 8 ['a']]) (by decide),
   parseNumStat_count_range.2 "1\t4294967296\ta".toList (by decide) (by decide)
     (Or.inr ⟨by decide, by decide⟩)⟩

/-! ## Orchestrator: what is stored -/

theorem tagCommit_eq (w : World) (prj folder : Str) (c : Commit) (diff : Diff) (score : Int)
    (hd : diffRepo (w.gitDiff folder c.Hash) = .ok diff) (hs : w.slatScore diff = .ok score) :
    ({ c with Project := prj, State := w.STATE_NEW, SlatScore := score } : Commit) =
      tagCommit w prj folder c := by
  simp [tagCommit, scoreOf, hd, hs]

theorem commitLoop_commits (w : World) (prj folder : Str) (log : List Commit) :
    ∀ (t : Time) (acc : List Commit) (t' : Time) (cs : List Commit),
      commitLoop w prj folder log t acc = .ok (t', cs) →
      cs = acc ++ log.map (tagCommit w prj folder) := by
  induction log with
  | nil =>
    intro t acc t' cs h
    simp only [commitLoop, Except.ok.injEq, Prod.mk.injEq] at h
    simp [h.2]
  | cons c log ih =>
    intro t acc t' cs h
    rw [commitLoop] at h
    cases hd : diffRepo (w.gitDiff folder c.Hash) with
    | error e => simp [hd] at h
    | ok diff =>
      cases hs : w.slatScore diff with
      | error e => simp [hd, hs] at h
      | ok score =>
        simp only [hd, hs] at h
        rw [tagCommit_eq w prj folder c diff score hd hs] at h
        rw [ih _ _ _ _ h]
        simp

theorem commitLoop_ok (w : World) (prj folder : Str) (log : List Commit)
    (hall : ∀ c ∈ log, ∃ diff score,
      diffRepo (w.gitDiff folder c.Hash) = .ok diff ∧ w.slatScore diff = .ok score) :
    ∀ (t : Time) (acc : List Commit),
      commitLoop w prj folder log t acc =
        .ok (cursorAfter t log, acc ++ log.map (tagCommit w prj folder)) := by
  induction log with
  | nil =>
    intro t acc
    simp [commitLoop, cursorAfter]
  | cons c log ih =>
    intro t acc
    obtain ⟨diff, score, hd, hs⟩ := hall c (by simp)
    have hrest := ih (fun x hx => hall x (by simp [hx]))
    cases hr : commitLoop w prj folder (c :: log) t acc with
    | error e =>
      rw [commitLoop] at hr
      simp only [hd, hs] at hr
      rw [hrest] at hr
      cases hr
    | ok r =>
      obtain ⟨t', cs⟩ := r
      rw [commitLoop_time w prj folder _ _ _ _ _ hr, commitLoop_commits w prj folder _ _ _ _ _ hr]

theorem commitLoop_error (w : World) (prj folder : Str) (log : List Commit)
    (hbad : ∃ c ∈ log, (∃ e, diffRepo (w.gitDiff folder c.Hash) = .error e) ∨
      ∃ diff e, diffRepo (w.gitDiff folder c.Hash) = .ok diff ∧ w.slatScore diff = .error e) :
    ∀ (t : Time) (acc : List Commit), ∃ e, commitLoop w prj folder log t acc = .error e := by
  induction log with
  | nil => simp at hbad
  | cons c log ih =>
    intro t acc
    rw [commitLoop]
    cases hd : diffRepo (w.gitDiff folder c.Hash) with
    | error e => exact ⟨_, rfl⟩
    | ok diff =>
      simp only
      cases hs : w.slatScore diff with
      | error e => exact ⟨_, rfl⟩
      | ok score =>
        simp only
        apply ih
        obtain ⟨x, hx, hxbad⟩ := hbad
        rcases List.mem_cons.mp hx with e | e
        · subst e
          rcases hxbad with ⟨e1, h1⟩ | ⟨diff1, e1, h1, h2⟩
          · rw [hd] at h1
            cases h1
          · rw [hd] at h1
            cases h1
            rw [hs] at h2
            cases h2
        · exact ⟨x, e, hxbad⟩

/-- C12: for a project whose cursor is read and whose log is retrieved, when the
diff and the score of every commit of the log succeed, the list that
`updateCommits` hands to `StoreCommits` is the log mapped commit by commit, so
of the same length and in the same order, each commit with `Project` the
project id, `State` the constant `STATE_NEW`, `SlatScore` the score of the diff
of its own hash, and hash, names, time, subject and message as in the log; when
`StoreCommits` succeeds these commits are added in this order to the store. -/
theorem syncProject_stores (w : World) (conf : Config) (db : DB) (prj : Str)
    (pc : ConfigProject) (log : List Commit)
    (hget : w.dbError (.getFetchState prj) = none)
    (hlog : logRepo (repoFolder w conf pc)
      (w.gitLog (repoFolder w conf pc) (sinceOf w db prj)) = .ok log)
    (hall : ∀ c ∈ log, ∃ diff score,
      diffRepo (w.gitDiff (repoFolder w conf pc) c.Hash) = .ok diff ∧
        w.slatScore diff = .ok score) :
    commitLoop w prj (repoFolder w conf pc) log (sinceOf w db prj) [] =
      .ok (cursorAfter (sinceOf w db prj) log,
        log.map (tagCommit w prj (repoFolder w conf pc))) ∧
    (∀ c ∈ log,
      (tagCommit w prj (repoFolder w conf pc) c).Project = prj ∧
      (tagCommit w prj (repoFolder w conf pc) c).State = w.STATE_NEW ∧
      (∀ diff score, diffRepo (w.gitDiff (repoFolder w conf pc) c.Hash) = .ok diff →
        w.slatScore diff = .ok score →
        (tagCommit w prj (repoFolder w conf pc) c).SlatScore = score) ∧
      (tagCommit w prj (repoFolder w conf pc) c).Hash = c.Hash ∧
      (tagCommit w prj (repoFolder w conf pc) c).AuthorName = c.AuthorName ∧
      (tagCommit w prj (repoFolder w conf pc) c).CommitterName = c.CommitterName ∧
      (tagCommit w prj (repoFolder w conf pc) c).CommitWhen = c.CommitWhen ∧
      (tagCommit w prj (repoFolder w conf pc) c).Subject = c.Subject ∧
      (tagCommit w prj (repoFolder w conf pc) c).Message = c.Message) ∧
    (w.dbError (.storeCommits (log.map (tagCommit w prj (repoFolder w conf pc)))) = none →
      (syncProject w conf db prj pc).2.commits =
        db.commits ++ log.map (tagCommit w prj (repoFolder w conf pc))) := by
  have hloop := commitLoop_ok w prj (repoFolder w conf pc) log hall (sinceOf w db prj) []
  simp only [List.nil_append] at hloop
  refine ⟨hloop, ?_, ?_⟩
  · intro c _
    refine ⟨rfl, rfl, ?_, rfl, rfl, rfl, rfl, rfl, rfl⟩
    intro diff score hd hs
    simp [tagCommit, scoreOf, hd, hs]
  · intro hstore
    unfold syncProject
    simp only [hget, hlog, hloop, hstore]
    cases w.dbError (.updateFetchState prj (cursorAfter (sinceOf w db prj) log)) <;>
      simp [DB.storeCommits, DB.updateFetchState]

/-- C12, witness: a log of two commits, in the world of the examples. -/
theorem syncProject_stores_witness :
    (syncProject (exampleWorld "h1\x00a\x00c\x0050\x00s\x00b\x00\nh2\x00a\x00c\x0040\x00s\x00b\x00\n".toList)
        exampleConfig (exampleDB (fun _ => none)) ['p'] { Repo := "repo".toList }).2.commits =
      [{ Hash := "h1".toList, AuthorName := ['a'], CommitterName := ['c'],
         CommitWhen := timeUnix 50, Subject := ['s'], Message := ['b'], Project := ['p'],
         State := 1, SlatScore := 0 },
       { Hash := "h2".toList, AuthorName := ['a'], CommitterName := ['c'],
         CommitWhen := timeUnix 40, Subject := ['s'], Message := ['b'], Project := ['p'],
         State := 1, SlatScore := 0 }] :=
  ((syncProject_stores
      (exampleWorld "h1\x00a\x00c\x0050\x00s\x00b\x00\nh2\x00a\x00c\x0040\x00s\x00b\x00\n".toList)
      exampleConfig (exampleDB (fun _ => none)) ['p'] { Repo := "repo".toList }
      [{ Hash := "h1".toList, AuthorName := ['a'], CommitterName := ['c'],
         CommitWhen := timeUnix 50, Subject := ['s'], Message := ['b'] },
       { Hash := "h2".toList, AuthorName := ['a'], CommitterName := ['c'],
         CommitWhen := timeUnix 40, Subject := ['s'], Message := ['b'] }]
      rfl (by decide) (fun _ _ => ⟨{ Stats := [] }, 0, rfl, rfl⟩)).2.2 rfl).trans (by decide)

/-! ## Orchestrator: failures -/

theorem syncProject_fails (w : World) (conf : Config) (db : DB) (prj : Str)
    (pc : ConfigProject) (hfail : passFails w conf (sinceOf w db prj) pc) :
    ∃ e, syncProject w conf db prj pc = (some e, db) := by
  unfold syncProject
  cases h1 : w.dbError (.getFetchState prj) with
  | some e => exact ⟨e, rfl⟩
  | none =>
    simp only
    rcases hfail with ⟨e, he⟩ | ⟨log, hlog, hbad⟩
    · rw [he]
      exact ⟨e, rfl⟩
    · rw [hlog]
      simp only
      obtain ⟨e, he⟩ := commitLoop_error w prj _ log hbad (sinceOf w db prj) []
      rw [he]
      exact ⟨e, rfl⟩

theorem filter_tagCommit (w : World) (prj folder p : Str) (log : List Commit) (hp : p ≠ prj) :
    (log.map (tagCommit w prj folder)).filter (fun c => decide (c.Project = p)) = [] := by
  rw [List.filter_eq_nil_iff]
  intro c hc
  obtain ⟨x, -, rfl⟩ := List.mem_map.mp hc
  simp only [tagCommit, decide_eq_true_eq]
  exact fun e => hp e.symm

theorem syncProject_other (w : World) (conf : Config) (db : DB) (prj : Str)
    (pc : ConfigProject) (p : Str) (hp : p ≠ prj) :
    (syncProject w conf db prj pc).2.fetchState p = db.fetchState p ∧
    (syncProject w conf db prj pc).2.commits.filter (fun c => decide (c.Project = p)) =
      db.commits.filter (fun c => decide (c.Project = p)) := by
  unfold syncProject
  cases h1 : w.dbError (.getFetchState prj) with
  | some e => exact ⟨rfl, rfl⟩
  | none =>
    simp only
    cases h2 : logRepo (repoFolder w conf pc)
        (w.gitLog (repoFolder w conf pc) (sinceOf w db prj)) with
    | error e => exact ⟨rfl, rfl⟩
    | ok log =>
      simp only
      cases h3 : commitLoop w prj (repoFolder w conf pc) log (sinceOf w db prj) [] with
      | error e => exact ⟨rfl, rfl⟩
      | ok r =>
        obtain ⟨t, cs⟩ := r
        have hcs := commitLoop_commits w prj _ log _ _ _ _ h3
        simp only [List.nil_append] at hcs
        simp only
        cases h4 : w.dbError (.storeCommits cs) with
        | some e => exact ⟨rfl, rfl⟩
        | none =>
          simp only
          cases h5 : w.dbError (.updateFetchState prj t) with
          | some e =>
            simp only [DB.storeCommits, List.filter_append, hcs,
              filter_tagCommit w prj _ p log hp, List.append_nil, and_self]
          | none =>
            simp only [DB.storeCommits, DB.updateFetchState, List.filter_append, hcs,
              filter_tagCommit w prj _ p log hp, List.append_nil, hp, if_false, and_self]

theorem updateCommitsLoop_no_partial (w : World) (conf : Config) (prj : Str)
    (pc : ConfigProject) (ps : List (Str × ConfigProject)) :
    ∀ db : DB, (ps.map Prod.fst).Nodup → (prj, pc) ∈ ps →
      passFails w conf (sinceOf w db prj) pc →
      (updateCommitsLoop w conf ps db).1 ≠ none ∧
      (updateCommitsLoop w conf ps db).2.fetchState prj = db.fetchState prj ∧
      (updateCommitsLoop w conf ps db).2.commits.filter (fun c => decide (c.Project = prj)) =
        db.commits.filter (fun c => decide (c.Project = prj)) := by
  induction ps with
  | nil =>
    intro db _ hmem
    simp at hmem
  | cons q ps ih =>
    intro db hnd hmem hfail
    obtain ⟨p0, pc0⟩ := q
    simp only [List.map_cons, List.nodup_cons] at hnd
    obtain ⟨hp0, hnd'⟩ := hnd
    rw [updateCommitsLoop]
    rcases List.mem_cons.mp hmem with e | e
    · obtain ⟨rfl, rfl⟩ := Prod.mk.inj e
      obtain ⟨err, herr⟩ := syncProject_fails w conf db prj pc hfail
      rw [herr]
      simp
    · have hkey : prj ∈ ps.map Prod.fst := List.mem_map.mpr ⟨(prj, pc), e, rfl⟩
      have hne : prj ≠ p0 := fun e2 => hp0 (e2 ▸ hkey)
      obtain ⟨hfs, hcm⟩ := syncProject_other w conf db p0 pc0 prj hne
      cases hsync : syncProject w conf db p0 pc0 with
      | mk o db1 =>
        rw [hsync] at hfs hcm
        cases o with
        | some err => exact ⟨by simp, hfs, hcm⟩
        | none =>
          simp only
          have hfail1 : passFails w conf (sinceOf w db1 prj) pc := by
            rw [sinceOf_congr w db db1 prj hfs]
            exact hfail
          obtain ⟨h1, h2, h3⟩ := ih db1 hnd' e hfail1
          exact ⟨h1, h2.trans hfs, h3.trans hcm⟩

/-- C13: in a pass of `updateCommits` over projects with distinct ids, when the
log of a configured project is not retrieved or not parsed, or the diff or the
score of one of its commits fails, the pass ends in a panic, the cursor of that
project is what it was before the pass, and so are the stored commits of that
project: none of this pass is stored. -/
theorem updateCommits_no_partial (w : World) (conf : Config) (db : DB) (prj : Str)
    (pc : ConfigProject) (hnodup : (conf.Projects.map Prod.fst).Nodup)
    (hmem : (prj, pc) ∈ conf.Projects)
    (hfail : passFails w conf (sinceOf w db prj) pc) :
    (updateCommits w conf db).1 ≠ none ∧
    (updateCommits w conf db).2.fetchState prj = db.fetchState prj ∧
    (updateCommits w conf db).2.commits.filter (fun c => decide (c.Project = prj)) =
      db.commits.filter (fun c => decide (c.Project = prj)) :=
  updateCommitsLoop_no_partial w conf prj pc conf.Projects db hnodup hmem hfail

/-- C13, witness: the log of project `p` has a commit time that is not a
number. -/
theorem updateCommits_no_partial_witness :
    (updateCommits (exampleWorld "h\x00a\x00c\x00x1\x00s\x00b\x00\n".toList) exampleConfig
        (exampleDB (fun _ => some (timeUnix 100)))).1 ≠ none ∧
    (updateCommits (exampleWorld "h\x00a\x00c\x00x1\x00s\x00b\x00\n".toList) exampleConfig
        (exampleDB (fun _ => some (timeUnix 100)))).2.fetchState ['p'] = some (timeUnix 100) ∧
    (updateCommits (exampleWorld "h\x00a\x00c\x00x1\x00s\x00b\x00\n".toList) exampleConfig
        (exampleDB (fun _ => some (timeUnix 100)))).2.commits.filter
          (fun c => decide (c.Project = ['p'])) = [] :=
  updateCommits_no_partial (exampleWorld "h\x00a\x00c\x00x1\x00s\x00b\x00\n".toList)
    exampleConfig (exampleDB (fun _ => some (timeUnix 100))) ['p'] { Repo := "repo".toList }
    (by decide) (by decide) (Or.inl ⟨_, rfl⟩)

/-! ## No isolation between projects -/

theorem updateCommitsLoop_append (w : World) (conf : Config)
    (pre rest : List (Str × ConfigProject)) :
    ∀ db db1 : DB, updateCommitsLoop w conf pre db = (none, db1) →
      updateCommitsLoop w conf (pre ++ rest) db = updateCommitsLoop w conf rest db1 := by
  induction pre with
  | nil =>
    intro db db1 h
    simp only [updateCommitsLoop, Prod.mk.injEq, true_and] at h
    rw [h]
    rfl
  | cons q pre ih =>
    intro db db1 h
    obtain ⟨p0, pc0⟩ := q
    simp only [List.cons_append]
    rw [updateCommitsLoop] at h ⊢
    cases hsync : syncProject w conf db p0 pc0 with
    | mk o db2 =>
      rw [hsync] at h
      cases o with
      | some err => simp at h
      | none => exact ih db2 db1 h

theorem updateReposLoop_append (w : World) (m : Mirror) (conf : Config)
    (pre rest : List (Str × ConfigProject)) :
    ∀ done done1 : List RepoAction, updateReposLoop w m conf pre done = (none, done1) →
      updateReposLoop w m conf (pre ++ rest) done = updateReposLoop w m conf rest done1 := by
  induction pre with
  | nil =>
    intro done done1 h
    simp only [updateReposLoop, Prod.mk.injEq, true_and] at h
    rw [h]
    rfl
  | cons q pre ih =>
    intro done done1 h
    obtain ⟨p0, pc0⟩ := q
    simp only [List.cons_append]
    rw [updateReposLoop] at h ⊢
    cases hstep : repoStep w m conf pc0 done with
    | mk o done2 =>
      rw [hstep] at h
      cases o with
      | some err => simp at h
      | none => exact ih done2 done1 h

theorem updateCommitsLoop_other (w : World) (conf : Config) (ps : List (Str × ConfigProject))
    (p : Str) (hp : p ∉ ps.map Prod.fst) :
    ∀ db : DB, (updateCommitsLoop w conf ps db).2.fetchState p = db.fetchState p ∧
      (updateCommitsLoop w conf ps db).2.commits.filter (fun c => decide (c.Project = p)) =
        db.commits.filter (fun c => decide (c.Project = p)) := by
  induction ps with
  | nil =>
    intro db
    exact ⟨rfl, rfl⟩
  | cons q ps ih =>
    intro db
    obtain ⟨p0, pc0⟩ := q
    simp only [List.map_cons, List.mem_cons, not_or] at hp
    obtain ⟨hfs, hcm⟩ := syncProject_other w conf db p0 pc0 p hp.1
    rw [updateCommitsLoop]
    cases hsync : syncProject w conf db p0 pc0 with
    | mk o db1 =>
      rw [hsync] at hfs hcm
      cases o with
      | some err => exact ⟨hfs, hcm⟩
      | none =>
        obtain ⟨h1, h2⟩ := ih hp.2 db1
        exact ⟨h1.trans hfs, h2.trans hcm⟩

theorem repoStep_done (w : World) (m : Mirror) (conf : Config) (pc : ConfigProject)
    (done : List RepoAction) :
    ∃ act, (repoStep w m conf pc done).2 = done ++ [act] := by
  unfold repoStep
  simp only
  split
  · split <;> exact ⟨_, rfl⟩
  · split <;> exact ⟨_, rfl⟩

/-- C14, counterexample to the claim as stated.  The projects `p` and `q` are
visited in this order.  The log of `p` is not retrieved, the log of `q` would be
retrieved with one commit, and after `updateCommits` the pass has ended in a
panic, `q` has no cursor and no commit is stored.  And when the clone of `p`
fails, the only command run is that clone: `q` is neither cloned nor pulled. -/
theorem backgroundUpdate_aborts_counterexample :
    (logRepo "code/p".toList (brokenWorld.gitLog "code/p".toList
        (sinceOf brokenWorld (exampleDB (fun _ => none)) ['p'])) =
        .error "exit status 1".toList ∧
      logRepo "code/q".toList (brokenWorld.gitLog "code/q".toList
        (sinceOf brokenWorld (exampleDB (fun _ => none)) ['q'])) =
        .ok [{ Hash := ['h'], AuthorName := ['a'], CommitterName := ['c'],
               CommitWhen := timeUnix 900000, Subject := ['s'], Message := ['b'] }] ∧
      (updateCommits brokenWorld exampleConfigTwo (exampleDB (fun _ => none))).1 =
        some "exit status 1".toList ∧
      (updateCommits brokenWorld exampleConfigTwo
        (exampleDB (fun _ => none))).2.fetchState ['q'] = none ∧
      (updateCommits brokenWorld exampleConfigTwo (exampleDB (fun _ => none))).2.commits = []) ∧
    ((backgroundUpdate brokenWorld brokenMirror exampleConfigTwo exampleConfigTwo.Projects
        (exampleDB (fun _ => none))).1 = some "exit status 128".toList ∧
      (backgroundUpdate brokenWorld brokenMirror exampleConfigTwo exampleConfigTwo.Projects
        (exampleDB (fun _ => none))).2.1 = [.clone ['p'] "code/p".toList]) := by
  decide

/-! ## The cursor in epoch time -/

theorem parseLogLoop_isTime (folder : Str) (m : Nat) :
    ∀ (fs : List Str) (acc cs : List Commit), fs.length / 6 = m →
      parseLogLoop folder fs acc = .ok cs → (∀ c ∈ acc, isTime c.CommitWhen) →
      ∀ c ∈ cs, isTime c.CommitWhen := by
  induction m with
  | zero =>
    intro fs acc cs hlen h hacc
    have hshort : fs.length < 6 := by omega
    rw [parseLogLoop_short folder fs acc hshort] at h
    rw [← Except.ok.inj h]
    exact hacc
  | succ m ih =>
    intro fs acc cs hlen h hacc
    rcases fs with _ | ⟨a, _ | ⟨b, _ | ⟨c, _ | ⟨d, _ | ⟨e, _ | ⟨g, rest⟩⟩⟩⟩⟩⟩
    all_goals try (simp only [List.length_cons, List.length_nil] at hlen; omega)
    cases hat : atoi d with
    | none =>
      rw [parseLogLoop] at h
      simp [hat] at h
    | some v =>
      rw [parseLogLoop_step folder a b c d e g rest acc v hat] at h
      have hrest : rest.length / 6 = m := by
        simp only [List.length_cons] at hlen
        omega
      apply ih rest _ cs hrest h
      intro x hx
      rcases List.mem_append.mp hx with hx1 | hx1
      · exact hacc x hx1
      · simp only [List.mem_singleton] at hx1
        rw [hx1]
        exact timeUnix_isTime _

theorem logRepo_isTime (folder : Str) (run : CmdResult) (log : List Commit)
    (h : logRepo folder run = .ok log) : ∀ c ∈ log, isTime c.CommitWhen := by
  unfold logRepo at h
  split at h
  · cases h
  · exact parseLogLoop_isTime folder _ _ [] log rfl h (by simp)

theorem syncProject_keeps (w : World) (conf : Config) (db : DB) (prj : Str)
    (pc : ConfigProject) (p : Str) (t : Time) (ht : db.fetchState p = some t) :
    ∃ t', (syncProject w conf db prj pc).2.fetchState p = some t' ∧ t ≤ t' ∧
      (t' = t ∨ isTime t') := by
  unfold syncProject
  cases h1 : w.dbError (.getFetchState prj) with
  | some e => exact ⟨t, ht, le_refl _, Or.inl rfl⟩
  | none =>
    simp only
    cases h2 : logRepo (repoFolder w conf pc)
        (w.gitLog (repoFolder w conf pc) (sinceOf w db prj)) with
    | error e => exact ⟨t, ht, le_refl _, Or.inl rfl⟩
    | ok log =>
      simp only
      cases h3 : commitLoop w prj (repoFolder w conf pc) log (sinceOf w db prj) [] with
      | error e => exact ⟨t, ht, le_refl _, Or.inl rfl⟩
      | ok r =>
        obtain ⟨t1, cs⟩ := r
        simp only
        cases h4 : w.dbError (.storeCommits cs) with
        | some e => exact ⟨t, ht, le_refl _, Or.inl rfl⟩
        | none =>
          simp only
          cases h5 : w.dbError (.updateFetchState prj t1) with
          | some e => exact ⟨t, ht, le_refl _, Or.inl rfl⟩
          | none =>
            simp only [DB.updateFetchState, DB.storeCommits]
            by_cases hp : p = prj
            · subst hp
              have ht1 := commitLoop_time w p _ log _ _ _ _ h3
              have hs : sinceOf w db p = t := by simp [sinceOf, ht]
              rw [hs] at ht1
              refine ⟨t1, by simp, ?_, ?_⟩
              · rw [ht1]
                exact cursorAfter_ge_since _ _
              · rw [ht1]
                rcases cursorAfter_eq t log with h | ⟨c, hc, hce⟩
                · exact Or.inl h
                · right
                  rw [← hce]
                  exact logRepo_isTime _ _ log h2 c hc
            · exact ⟨t, by simp [hp, ht], le_refl _, Or.inl rfl⟩

theorem updateCommitsLoop_keeps (w : World) (conf : Config)
    (ps : List (Str × ConfigProject)) :
    ∀ (db : DB) (p : Str) (t : Time), db.fetchState p = some t →
      ∃ t', (updateCommitsLoop w conf ps db).2.fetchState p = some t' ∧ t ≤ t' ∧
        (t' = t ∨ isTime t') := by
  induction ps with
  | nil =>
    intro db p t ht
    exact ⟨t, ht, le_refl _, Or.inl rfl⟩
  | cons q ps ih =>
    intro db p t ht
    obtain ⟨prj, pc⟩ := q
    obtain ⟨t1, ht1, hle1, hor1⟩ := syncProject_keeps w conf db prj pc p t ht
    rw [updateCommitsLoop]
    cases hsync : syncProject w conf db prj pc with
    | mk o db1 =>
      rw [hsync] at ht1
      cases o with
      | some e => exact ⟨t1, ht1, hle1, hor1⟩
      | none =>
        obtain ⟨t2, ht2, hle2, hor2⟩ := ih db1 p t1 ht1
        refine ⟨t2, ht2, le_trans hle1 hle2, ?_⟩
        rcases hor2 with h | h
        · rw [h]
          exact hor1
        · exact Or.inr h

theorem unixNano_mono (c c' : Int) (hc : unwrapped c) (hle : c ≤ c')
    (hor : c' = c ∨ isTime c') : unixNano c ≤ unixNano c' := by
  rcases hor with h | h
  · rw [h]
  · have hc' : unwrapped c' := by
      obtain ⟨⟨hlo, hhi⟩, hu⟩ := hc
      obtain ⟨hlo', hhi'⟩ := h
      have h1 : (-9223372036854775808 : Int) ≤ c / 1000000000 := hlo
      have h2 : c / 1000000000 < (9223372036854775808 : Int) := hhi
      have h3 : (-9223372036854775808 : Int) ≤ c' / 1000000000 := hlo'
      have h4 : c' / 1000000000 < (9223372036854775808 : Int) := hhi'
      refine ⟨⟨hlo', hhi'⟩, ?_⟩
      unfold unixSeconds wrapInt64 unixToInternal at hu ⊢
      omega
    rw [unixNano_unwrapped c hc, unixNano_unwrapped c' hc']
    omega

/-- C9, as amended: whatever the log and however the pass ends, a project that
had the cursor `c` before `updateCommits` has a cursor `c'` after it that is not
before `c` in the order of `Time.After`; and when the epoch seconds of `c` are
below `2 ^ 63 - 62135596800`, the epoch time of `c'` is not less than that of
`c`. -/
theorem updateCommits_cursor_mono (w : World) (conf : Config) (db : DB) (prj : Str)
    (c : Time) (hc : db.fetchState prj = some c) :
    ∃ c', (updateCommits w conf db).2.fetchState prj = some c' ∧ c ≤ c' ∧
      (unwrapped c → unixNano c ≤ unixNano c') := by
  obtain ⟨c', h1, h2, h3⟩ := updateCommitsLoop_keeps w conf conf.Projects db prj c hc
  exact ⟨c', h1, h2, fun hu => unixNano_mono c c' hu h2 h3⟩

/-- C9, witness: a stored cursor of 100 s and a log of one commit made at
50 s. -/
theorem updateCommits_cursor_mono_witness :
    ∃ c', (updateCommits (exampleWorld "h\x00a\x00c\x0050\x00s\x00b\x00\n".toList)
        exampleConfig (exampleDB (fun _ => some (timeUnix 100)))).2.fetchState ['p']
      = some c' ∧ unixNano (timeUnix 100) ≤ unixNano c' :=
  let ⟨c', h1, _, h3⟩ :=
    updateCommits_cursor_mono (exampleWorld "h\x00a\x00c\x0050\x00s\x00b\x00\n".toList)
      exampleConfig (exampleDB (fun _ => some (timeUnix 100))) ['p'] (timeUnix 100) rfl
  ⟨c', h1, h3 (by decide)⟩

/-- C9, counterexample to the claim as stated: the stored cursor is the instant
`time.Unix(9223372036854775807, 0)` and the log has one commit made at 50 s.
For `After` the commit is after the cursor, whose seconds have wrapped, and the
cursor written is the commit time: its epoch seconds are 50, those of the cursor
before the pass are 9223372036854775807. -/
theorem updateCommits_cursor_mono_counterexample :
    (updateCommits (exampleWorld "h\x00a\x00c\x0050\x00s\x00b\x00\n".toList) exampleConfig
        (exampleDB (fun _ => some (timeUnix 9223372036854775807)))).2.fetchState ['p']
      = some (timeUnix 50) ∧
    unixSeconds (timeUnix 9223372036854775807) = 9223372036854775807 ∧
    unixSeconds (timeUnix 50) = 50 ∧
    unixNano (timeUnix 50) < unixNano (timeUnix 9223372036854775807) := by
  decide

theorem unixNano_le_iff (a b : Int) (ha : unwrapped a) (hb : unwrapped b) :
    unixNano a ≤ unixNano b ↔ a ≤ b := by
  rw [unixNano_unwrapped a ha, unixNano_unwrapped b hb]
  omega

theorem unixNano_max (a b : Int) (ha : unwrapped a) (hb : unwrapped b) :
    unwrapped (max a b) ∧ unixNano (max a b) = max (unixNano a) (unixNano b) := by
  rcases le_total a b with h | h
  · rw [max_eq_right h, max_eq_right ((unixNano_le_iff a b ha hb).mpr h)]
    exact ⟨hb, rfl⟩
  · rw [max_eq_left h, max_eq_left ((unixNano_le_iff b a hb ha).mpr h)]
    exact ⟨ha, rfl⟩

theorem unixNano_cursorAfter (log : List Commit) :
    ∀ s : Time, unwrapped s → (∀ c ∈ log, unwrapped c.CommitWhen) →
      unixNano (cursorAfter s log) =
        (log.map (fun c => unixNano c.CommitWhen)).foldl max (unixNano s) := by
  induction log with
  | nil =>
    intro s _ _
    rfl
  | cons c log ih =>
    intro s hs hl
    have hc := hl c (by simp)
    have hm := unixNano_max s c.CommitWhen hs hc
    have hstep : cursorAfter s (c :: log) = cursorAfter (max s c.CommitWhen) log := rfl
    rw [hstep, ih (max s c.CommitWhen) hm.1 (fun x hx => hl x (by simp [hx])), hm.2]
    rfl

theorem sixtyDaysBefore_eq (t : Int)
    (h : -9223372036854775808 ≤ t / 1000000000 - 5184000) :
    sixtyDaysBefore t = t - 5184000000000000 := by
  have hw : fallbackWindow = -5184000000000000 := by decide
  have hq : (-5184000000000000 : Int) / 1000000000 = -5184000 := by decide
  have hcond : ¬ (t / 1000000000 + -5184000 < (-9223372036854775808 : Int)) := by omega
  unfold sixtyDaysBefore
  rw [hw, hq, if_neg hcond]
  rfl

theorem sixtyDaysBefore_unwrapped (t : Int) (h : unwrapped (sixtyDaysBefore t)) :
    sixtyDaysBefore t = t - 5184000000000000 := by
  by_cases hs : -9223372036854775808 ≤ t / 1000000000 - 5184000
  · exact sixtyDaysBefore_eq t hs
  · exfalso
    have hw : fallbackWindow = -5184000000000000 := by decide
    have hq : (-5184000000000000 : Int) / 1000000000 = -5184000 := by decide
    have hcond : t / 1000000000 + -5184000 < (-9223372036854775808 : Int) := by omega
    have hv : sixtyDaysBefore t = -9223372036854775807 * 1000000000 + t % 1000000000 := by
      unfold sixtyDaysBefore
      rw [hw, hq, if_pos hcond]
    rw [hv] at h
    obtain ⟨-, hu⟩ := h
    have hu' : wrapInt64 ((-9223372036854775807 * 1000000000 + t % 1000000000) / 1000000000
        - 62135596800) < (9223372036854775808 - 62135596800 : Int) := hu
    unfold wrapInt64 at hu'
    omega

theorem syncProject_ok (w : World) (conf : Config) (db : DB) (prj : Str)
    (pc : ConfigProject) (log : List Commit) (h : passSucceeds w conf db prj pc log) :
    syncProject w conf db prj pc =
      (none, (db.storeCommits (log.map (tagCommit w prj (repoFolder w conf pc)))).updateFetchState
        prj (cursorAfter (sinceOf w db prj) log)) := by
  obtain ⟨hget, hlog, hall, hstore, hupd⟩ := h
  have hloop := commitLoop_ok w prj (repoFolder w conf pc) log hall (sinceOf w db prj) []
  simp only [List.nil_append] at hloop
  unfold syncProject
  simp only [hget, hlog, hloop, hstore, hupd]

theorem updateCommits_written (w : World) (conf : Config) (db db1 : DB) (prj : Str)
    (pc : ConfigProject) (pre post : List (Str × ConfigProject)) (log : List Commit)
    (hnodup : (conf.Projects.map Prod.fst).Nodup)
    (hconf : conf.Projects = pre ++ (prj, pc) :: post)
    (hpre : updateCommitsLoop w conf pre db = (none, db1))
    (hpass : passSucceeds w conf db prj pc log) :
    (updateCommits w conf db).2.fetchState prj =
      some (cursorAfter (sinceOf w db prj) log) := by
  rw [hconf, List.map_append, List.map_cons, List.nodup_append] at hnodup
  obtain ⟨-, hnd2, hdisj⟩ := hnodup
  have hnpre : prj ∉ pre.map Prod.fst := fun hmem => hdisj hmem (List.mem_cons_self _ _)
  have hnpost : prj ∉ post.map Prod.fst := (List.nodup_cons.mp hnd2).1
  have hfs1 : db1.fetchState prj = db.fetchState prj := by
    have := (updateCommitsLoop_other w conf pre prj hnpre db).1
    rw [hpre] at this
    exact this
  have hs1 : sinceOf w db1 prj = sinceOf w db prj := sinceOf_congr w db db1 prj hfs1
  have hpass1 : passSucceeds w conf db1 prj pc log := by
    unfold passSucceeds at hpass ⊢
    rw [hs1]
    exact hpass
  unfold updateCommits
  rw [hconf, updateCommitsLoop_append w conf pre _ db db1 hpre, updateCommitsLoop,
    syncProject_ok w conf db1 prj pc log hpass1]
  simp only
  rw [(updateCommitsLoop_other w conf post prj hnpost _).1, hs1]
  simp [DB.updateFetchState]

/-- C8, as amended: the projects have distinct ids, those visited before `prj`
end without a panic and nothing fails while `prj` is handled, `log` being its
log; whatever happens to the projects visited later, `updateCommits` leaves for
`prj` a cursor `t`.  When the epoch seconds of the starting cursor (the stored
cursor, or the clock minus sixty days) and of every commit time are below
`2 ^ 63 - 62135596800`, `t` is the maximum commit time of the log if some commit
is not earlier than the starting cursor, and the starting cursor if every
commit is earlier.  With an empty log a stored cursor is written back
unchanged, and a missing one is set to the clock minus 5184000 seconds (unless
these seconds leave the range of `int64`). -/
theorem updateCommits_cursor (w : World) (conf : Config) (db db1 : DB) (prj : Str)
    (pc : ConfigProject) (pre post : List (Str × ConfigProject)) (log : List Commit)
    (hnodup : (conf.Projects.map Prod.fst).Nodup)
    (hconf : conf.Projects = pre ++ (prj, pc) :: post)
    (hpre : updateCommitsLoop w conf pre db = (none, db1))
    (hpass : passSucceeds w conf db prj pc log) :
    ∃ t, (updateCommits w conf db).2.fetchState prj = some t ∧
      (unwrapped (sinceOf w db prj) → (∀ c ∈ log, unwrapped c.CommitWhen) →
        ((∃ c ∈ log, unixNano (sinceOf w db prj) ≤ unixNano c.CommitWhen) →
          (∃ c ∈ log, c.CommitWhen = t) ∧
            ∀ c ∈ log, unixNano c.CommitWhen ≤ unixNano t) ∧
        ((∀ c ∈ log, unixNano c.CommitWhen < unixNano (sinceOf w db prj)) →
          t = sinceOf w db prj)) ∧
      (log = [] → ∀ c, db.fetchState prj = some c → t = c) ∧
      (log = [] → db.fetchState prj = none →
        -9223372036854775808 ≤ w.now prj / 1000000000 - 5184000 →
        t = w.now prj - 5184000000000000) := by
  have hfs := updateCommits_written w conf db db1 prj pc pre post log hnodup hconf hpre hpass
  refine ⟨_, hfs, ?_, ?_, ?_⟩
  · intro hs hl
    have hge := cursorAfter_ge_since (sinceOf w db prj) log
    have hmem := cursorAfter_ge_mem (sinceOf w db prj) log
    have hcur : unwrapped (cursorAfter (sinceOf w db prj) log) := by
      rcases cursorAfter_eq (sinceOf w db prj) log with h | ⟨c, hc, hce⟩
      · rw [h]
        exact hs
      · rw [← hce]
        exact hl c hc
    refine ⟨?_, ?_⟩
    · rintro ⟨c, hc, hle⟩
      have hle' := (unixNano_le_iff _ _ hs (hl c hc)).mp hle
      refine ⟨?_, fun x hx => (unixNano_le_iff _ _ (hl x hx) hcur).mpr (hmem x hx)⟩
      rcases cursorAfter_eq (sinceOf w db prj) log with h | h
      · refine ⟨c, hc, ?_⟩
        have := hmem c hc
        rw [h] at this ⊢
        exact le_antisymm this hle'
      · exact h
    · intro hall
      rcases cursorAfter_eq (sinceOf w db prj) log with h | ⟨c, hc, hce⟩
      · exact h
      · have h1 := hall c hc
        have h2 := (unixNano_le_iff _ _ hs (hl c hc)).mpr (hce ▸ hge)
        exact absurd h1 (not_lt.mpr h2)
  · intro hnil c hc
    subst hnil
    simp [cursorAfter, sinceOf, hc]
  · intro hnil hc hclock
    subst hnil
    simp only [cursorAfter, sinceOf, hc, List.foldl_nil]
    exact sixtyDaysBefore_eq _ hclock

/-- C8, witness: a pass over project `p` with a stored cursor of 100 s and a log
of one commit made at 150 s. -/
theorem updateCommits_cursor_witness :
    ∃ t, (updateCommits (exampleWorld "h\x00a\x00c\x00150\x00s\x00b\x00\n".toList)
        exampleConfig (exampleDB (fun _ => some (timeUnix 100)))).2.fetchState ['p']
      = some t :=
  let ⟨t, ht, _⟩ :=
    updateCommits_cursor (exampleWorld "h\x00a\x00c\x00150\x00s\x00b\x00\n".toList)
      exampleConfig (exampleDB (fun _ => some (timeUnix 100)))
      (exampleDB (fun _ => some (timeUnix 100))) ['p'] { Repo := "repo".toList } [] []
      [{ Hash := ['h'], AuthorName := ['a'], CommitterName := ['c'],
         CommitWhen := timeUnix 150, Subject := ['s'], Message := ['b'] }]
      (by decide) rfl rfl
      ⟨rfl, by decide, fun _ _ => ⟨{ Stats := [] }, 0, rfl, rfl⟩, rfl, rfl⟩
  ⟨t, ht⟩

/-- C8, counterexample to the claim as stated.  First, with no cursor stored and
an empty log, the pass ends without a panic and the cursor is not left
unchanged: it was missing and is now the clock minus sixty days.  Second, with
a cursor of 100 s stored and a log of one commit made at 50 s, the cursor
written is 100 s, which is not the maximum commit time of the pass.  Third,
with a cursor of 100 s stored and a log of one commit whose time is
9223372036854775807 s, the cursor written is 100 s again: the seconds that
`time.Unix` keeps for that commit have wrapped and `After` finds it earlier.
Fourth, with no cursor stored, an empty log and the clock at the earliest second
of `time.Time`, the cursor written is the second after it, where `Add` stops,
and not the clock minus sixty days. -/
theorem updateCommits_cursor_counterexample :
    (logRepo (repoFolder (exampleWorld []) exampleConfig { Repo := "repo".toList })
        { exitCode := 0, stdout := [], stderr := [], status := [] } = .ok [] ∧
      (exampleDB (fun _ => none)).fetchState ['p'] = none ∧
      (updateCommits (exampleWorld []) exampleConfig (exampleDB (fun _ => none))).1 = none ∧
      (updateCommits (exampleWorld []) exampleConfig
          (exampleDB (fun _ => none))).2.fetchState ['p']
        = some (timeUnix 6000000 - 5184000000000000)) ∧
    (logRepo (repoFolder (exampleWorld []) exampleConfig { Repo := "repo".toList })
        { exitCode := 0, stdout := "h\x00a\x00c\x0050\x00s\x00b\x00\n".toList,
          stderr := [], status := [] }
        = .ok [{ Hash := ['h'], AuthorName := ['a'], CommitterName := ['c'],
                 CommitWhen := timeUnix 50, Subject := ['s'], Message := ['b'] }] ∧
      (updateCommits (exampleWorld "h\x00a\x00c\x0050\x00s\x00b\x00\n".toList) exampleConfig
          (exampleDB (fun _ => some (timeUnix 100)))).1 = none ∧
      (updateCommits (exampleWorld "h\x00a\x00c\x0050\x00s\x00b\x00\n".toList) exampleConfig
          (exampleDB (fun _ => some (timeUnix 100)))).2.fetchState ['p']
        = some (timeUnix 100) ∧
      timeUnix 100 ≠ timeUnix 50) ∧
    (logRepo (repoFolder (exampleWorld []) exampleConfig { Repo := "repo".toList })
        { exitCode := 0, stdout := "h\x00a\x00c\x009223372036854775807\x00s\x00b\x00\n".toList,
          stderr := [], status := [] }
        = .ok [{ Hash := ['h'], AuthorName := ['a'], CommitterName := ['c'],
                 CommitWhen := timeUnix 9223372036854775807, Subject := ['s'],
                 Message := ['b'] }] ∧
      unixSeconds (timeUnix 9223372036854775807) = 9223372036854775807 ∧
      (updateCommits
          (exampleWorld "h\x00a\x00c\x009223372036854775807\x00s\x00b\x00\n".toList)
          exampleConfig (exampleDB (fun _ => some (timeUnix 100)))).1 = none ∧
      (updateCommits
          (exampleWorld "h\x00a\x00c\x009223372036854775807\x00s\x00b\x00\n".toList)
          exampleConfig (exampleDB (fun _ => some (timeUnix 100)))).2.fetchState ['p']
        = some (timeUnix 100) ∧
      unixSeconds (timeUnix 100) = 100) ∧
    ((updateCommits { exampleWorld [] with now := fun _ => -9223372036854775808000000000 }
          exampleConfig (exampleDB (fun _ => none))).1 = none ∧
      (updateCommits { exampleWorld [] with now := fun _ => -9223372036854775808000000000 }
          exampleConfig (exampleDB (fun _ => none))).2.fetchState ['p']
        = some (-9223372036854775807000000000) ∧
      (-9223372036854775807000000000 : Int) ≠
        -9223372036854775808000000000 - 5184000000000000) := by
  decide

/-- C16, as amended: the projects have distinct ids, those visited before `prj`
end without a panic and nothing fails while `prj` is handled, `log` being its
log, and the epoch seconds of the starting cursor `s` and of every commit time
are below `2 ^ 63 - 62135596800`.  Then `s` is the stored cursor, or the clock
minus 5184000 seconds when none is stored, and whatever happens to the projects
visited later, `updateCommits` leaves for `prj` a cursor whose epoch time is the
maximum of the epoch times of `s` and of the commits of the log; with an empty
log the cursor is `s`. -/
theorem updateCommits_cursor_exact (w : World) (conf : Config) (db db1 : DB) (prj : Str)
    (pc : ConfigProject) (pre post : List (Str × ConfigProject)) (log : List Commit)
    (hnodup : (conf.Projects.map Prod.fst).Nodup)
    (hconf : conf.Projects = pre ++ (prj, pc) :: post)
    (hpre : updateCommitsLoop w conf pre db = (none, db1))
    (hpass : passSucceeds w conf db prj pc log)
    (hs : unwrapped (sinceOf w db prj)) (hl : ∀ c ∈ log, unwrapped c.CommitWhen) :
    (∀ c, db.fetchState prj = some c → sinceOf w db prj = c) ∧
    (db.fetchState prj = none → sinceOf w db prj = w.now prj - 5184000000000000) ∧
    ∃ t, (updateCommits w conf db).2.fetchState prj = some t ∧
      unixNano t =
        (log.map (fun c => unixNano c.CommitWhen)).foldl max (unixNano (sinceOf w db prj)) ∧
      (log = [] → t = sinceOf w db prj) := by
  have hfs := updateCommits_written w conf db db1 prj pc pre post log hnodup hconf hpre hpass
  refine ⟨?_, ?_, _, hfs, unixNano_cursorAfter log _ hs hl, ?_⟩
  · intro c hc
    simp [sinceOf, hc]
  · intro hc
    have hsat : sinceOf w db prj = sixtyDaysBefore (w.now prj) := by simp [sinceOf, hc]
    rw [hsat] at hs ⊢
    exact sixtyDaysBefore_unwrapped _ hs
  · intro hnil
    rw [hnil]
    rfl

/-- C16, witness: a stored cursor of 100 s and a log of commits made at 150 s and
120 s. -/
theorem updateCommits_cursor_exact_witness :
    ∃ t, (updateCommits
        (exampleWorld "h\x00a\x00c\x00150\x00s\x00b\x00\nh\x00a\x00c\x00120\x00s\x00b\x00\n".toList)
        exampleConfig (exampleDB (fun _ => some (timeUnix 100)))).2.fetchState ['p']
      = some t ∧
      unixNano t = max (max (unixNano (timeUnix 100)) (unixNano (timeUnix 150)))
        (unixNano (timeUnix 120)) :=
  let ⟨_, _, t, ht, hmax, _⟩ :=
    updateCommits_cursor_exact
      (exampleWorld "h\x00a\x00c\x00150\x00s\x00b\x00\nh\x00a\x00c\x00120\x00s\x00b\x00\n".toList)
      exampleConfig (exampleDB (fun _ => some (timeUnix 100)))
      (exampleDB (fun _ => some (timeUnix 100))) ['p'] { Repo := "repo".toList } [] []
      [{ Hash := ['h'], AuthorName := ['a'], CommitterName := ['c'],
         CommitWhen := timeUnix 150, Subject := ['s'], Message := ['b'] },
       { Hash := ['h'], AuthorName := ['a'], CommitterName := ['c'],
         CommitWhen := timeUnix 120, Subject := ['s'], Message := ['b'] }]
      (by decide) rfl rfl
      ⟨rfl, by decide, fun _ _ => ⟨{ Stats := [] }, 0, rfl, rfl⟩, rfl, rfl⟩
      (by decide) (by decide)
  ⟨t, ht, hmax⟩

/-- C16, counterexample to the claim as stated: the stored cursor is 100 s and
the log has one commit whose time is 9223372036854775807 s.  The seconds that
`time.Unix` keeps for the commit have wrapped, `After` finds it earlier than the
cursor, and the cursor written is 100 s, not the maximum of 100 and
9223372036854775807. -/
theorem updateCommits_cursor_exact_counterexample :
    logRepo (repoFolder (exampleWorld []) exampleConfig { Repo := "repo".toList })
        { exitCode := 0, stdout := "h\x00a\x00c\x009223372036854775807\x00s\x00b\x00\n".toList,
          stderr := [], status := [] }
      = .ok [{ Hash := ['h'], AuthorName := ['a'], CommitterName := ['c'],
               CommitWhen := timeUnix 9223372036854775807, Subject := ['s'],
               Message := ['b'] }] ∧
    (updateCommits (exampleWorld "h\x00a\x00c\x009223372036854775807\x00s\x00b\x00\n".toList)
        exampleConfig (exampleDB (fun _ => some (timeUnix 100)))).1 = none ∧
    (updateCommits (exampleWorld "h\x00a\x00c\x009223372036854775807\x00s\x00b\x00\n".toList)
        exampleConfig (exampleDB (fun _ => some (timeUnix 100)))).2.fetchState ['p']
      = some (timeUnix 100) ∧
    unixSeconds (timeUnix 100) = 100 ∧
    unixSeconds (timeUnix 9223372036854775807) = 9223372036854775807 ∧
    unixSeconds (timeUnix 100) ≠
      max (unixSeconds (timeUnix 100)) (unixSeconds (timeUnix 9223372036854775807)) := by
  decide

/-- C14, as amended: a failure is not confined to its project.  After the
projects visited before have been cloned or pulled, when the folder of a project
does not exist and its clone fails, or exists and its pull fails,
`backgroundUpdate` ends in a panic with that error (for a pull, after the text
`error pulling <folder>: `), with the commands of the projects visited before
and the failing command as the only commands run, and the database untouched.
When the log of a project is not retrieved, `updateCommits` ends in a panic with
the database as the projects visited before left it: for the failing project
and every later one the cursor and the stored commits are what they were before
the pass. -/
theorem backgroundUpdate_aborts (w : World) (m : Mirror) (conf : Config) (db : DB) :
    (∀ (pre post : List (Str × ConfigProject)) (prj : Str) (pc : ConfigProject)
        (done : List RepoAction) (err : Str),
      updateRepos w m conf pre = (none, done) →
      m.missing done (repoFolder w conf pc) = true →
      m.cloneError done pc (repoFolder w conf pc) = some err →
      backgroundUpdate w m conf (pre ++ (prj, pc) :: post) db =
        (some err, done ++ [.clone pc.Repo (repoFolder w conf pc)], db)) ∧
    (∀ (pre post : List (Str × ConfigProject)) (prj : Str) (pc : ConfigProject)
        (done : List RepoAction) (err : Str),
      updateRepos w m conf pre = (none, done) →
      m.missing done (repoFolder w conf pc) = false →
      m.pullError done (repoFolder w conf pc) = some err →
      backgroundUpdate w m conf (pre ++ (prj, pc) :: post) db =
        (some ("error pulling ".toList ++ repoFolder w conf pc ++ ": ".toList ++ err),
          done ++ [.pull (repoFolder w conf pc)], db)) ∧
    (∀ (pre post : List (Str × ConfigProject)) (prj : Str) (pc : ConfigProject)
        (db1 : DB) (err : Str),
      conf.Projects = pre ++ (prj, pc) :: post →
      updateCommitsLoop w conf pre db = (none, db1) →
      w.dbError (.getFetchState prj) = none →
      logRepo (repoFolder w conf pc)
        (w.gitLog (repoFolder w conf pc) (sinceOf w db1 prj)) = .error err →
      updateCommits w conf db = (some err, db1) ∧
        ∀ q, q ∉ pre.map Prod.fst →
          db1.fetchState q = db.fetchState q ∧
          db1.commits.filter (fun c => decide (c.Project = q)) =
            db.commits.filter (fun c => decide (c.Project = q))) := by
  refine ⟨?_, ?_, ?_⟩
  · intro pre post prj pc done err hpre hmiss hclone
    have hstep : repoStep w m conf pc done =
        (some err, done ++ [.clone pc.Repo (repoFolder w conf pc)]) := by
      unfold repoStep
      simp only [hmiss, hclone, if_true]
    unfold backgroundUpdate updateRepos
    unfold updateRepos at hpre
    rw [updateReposLoop_append w m conf pre _ [] done hpre, updateReposLoop, hstep]
  · intro pre post prj pc done err hpre hmiss hpull
    have hstep : repoStep w m conf pc done =
        (some ("error pulling ".toList ++ repoFolder w conf pc ++ ": ".toList ++ err),
          done ++ [.pull (repoFolder w conf pc)]) := by
      unfold repoStep
      simp only [hmiss, hpull, errorPulling]
      rfl
    unfold backgroundUpdate updateRepos
    unfold updateRepos at hpre
    rw [updateReposLoop_append w m conf pre _ [] done hpre, updateReposLoop, hstep]
  · intro pre post prj pc db1 err hconf hpre hget hlog
    refine ⟨?_, ?_⟩
    · unfold updateCommits
      rw [hconf, updateCommitsLoop_append w conf pre _ db db1 hpre, updateCommitsLoop]
      have : syncProject w conf db1 prj pc = (some err, db1) := by
        unfold syncProject
        simp only [hget, hlog]
      rw [this]
    · intro q hq
      have := updateCommitsLoop_other w conf pre q hq db
      rw [hpre] at this
      exact this

/-- C14, witness: with the projects `p` and `q`, the clone of `p` fails; the pull
of `p` fails; and the log of `p` is not retrieved. -/
theorem backgroundUpdate_aborts_witness :
    backgroundUpdate brokenWorld brokenMirror exampleConfigTwo
        ([] ++ ((['p'], { Repo := ['p'] }) :: [(['q'], { Repo := ['q'] })]))
        (exampleDB (fun _ => none)) =
      (some "exit status 128".toList, [] ++ [.clone ['p'] "code/p".toList],
        exampleDB (fun _ => none)) ∧
    backgroundUpdate brokenWorld
        { missing := fun _ _ => false, cloneError := fun _ _ _ => none,
          pullError := fun _ _ => some "exit status 1".toList }
        exampleConfigTwo
        ([] ++ ((['p'], { Repo := ['p'] }) :: [(['q'], { Repo := ['q'] })]))
        (exampleDB (fun _ => none)) =
      (some "error pulling code/p: exit status 1".toList, [] ++ [.pull "code/p".toList],
        exampleDB (fun _ => none)) ∧
    updateCommits brokenWorld exampleConfigTwo (exampleDB (fun _ => none)) =
      (some "exit status 1".toList, exampleDB (fun _ => none)) :=
  ⟨(backgroundUpdate_aborts brokenWorld brokenMirror exampleConfigTwo
        (exampleDB (fun _ => none))).1 [] [(['q'], { Repo := ['q'] })] ['p'] { Repo := ['p'] }
        [] "exit status 128".toList rfl (by decide) (by decide),
   (backgroundUpdate_aborts brokenWorld
        { missing := fun _ _ => false, cloneError := fun _ _ _ => none,
          pullError := fun _ _ => some "exit status 1".toList }
        exampleConfigTwo
        (exampleDB (fun _ => none))).2.1 [] [(['q'], { Repo := ['q'] })] ['p'] { Repo := ['p'] }
        [] "exit status 1".toList rfl (by decide) (by decide),
   ((backgroundUpdate_aborts brokenWorld brokenMirror exampleConfigTwo
        (exampleDB (fun _ => none))).2.2 [] [(['q'], { Repo := ['q'] })] ['p'] { Repo := ['p'] }
        (exampleDB (fun _ => none)) "exit status 1".toList rfl rfl rfl (by decide)).1⟩

end Deckard
